import Mathlib

set_option maxRecDepth 100000

/-!
Verification of the `alpha` spelling-correction library
(`spelling.py`, `wordmetric.py`) against its natural-language specification.

Words are modelled as `List Char`, distances as `ℚ` (the Python code mixes
integer deletion counts with fractional metric values), fallible or
fuel-bounded computations as `Option`.
-/

namespace Alpha

/-! ## Kernel-computable rational arithmetic

`Rat.add` normalizes with `Nat.gcd`, which is defined by well-founded
recursion and therefore does not reduce inside the kernel, so `decide`
cannot evaluate it.  `radd` below is a structurally recursive addition on
`ℚ`, proved equal to `+` (`radd_eq`); the embedded code uses `radd` so that
concrete program runs can be settled by `decide`. -/

/-- Fuel-bounded Euclid: `sgcdF f x y = Nat.gcd x y` whenever `x ≤ f`. -/
def sgcdF : Nat → Nat → Nat → Nat
  | 0, _, y => y
  | _ + 1, 0, y => y
  | f + 1, x + 1, y => sgcdF f (y % (x + 1)) (x + 1)

/-- Structurally recursive `Nat.gcd`. -/
def sgcd (x y : Nat) : Nat := sgcdF (x + 1) x y

/-- Kernel-computable version of `Rat.normalize`/`mkRat`
(see `rnorm_eq_mkRat`). -/
def rnorm (num : Int) (den : Nat) : ℚ :=
  have hg : sgcd num.natAbs den = num.natAbs.gcd den := by
    suffices h : ∀ f x y, x ≤ f → sgcdF (f + 1) x y = Nat.gcd x y from h _ _ _ le_rfl
    intro f
    induction f with
    | zero => intro x y hx; interval_cases x; simp [sgcdF]
    | succ f ih =>
      intro x y hx
      match x with
      | 0 => simp [sgcdF]
      | x + 1 =>
        have h2 : y % (x + 1) ≤ f := by
          have := Nat.mod_lt y (show 0 < x + 1 by omega)
          omega
        rw [show sgcdF (f + 1 + 1) (x + 1) y = sgcdF (f + 1) (y % (x + 1)) (x + 1) from rfl,
          ih _ _ h2, Nat.gcd_succ]
  if den_nz : den = 0 then { num := 0 }
  else
    if hg1 : sgcd num.natAbs den = 1 then
      ⟨num, den, den_nz, by show Nat.gcd _ _ = 1; rw [← hg]; exact hg1⟩
    else
      ⟨num.tdiv (sgcd num.natAbs den), den / sgcd num.natAbs den,
        Rat.normalize.den_nz den_nz hg, Rat.normalize.reduced den_nz hg⟩

/-- Kernel-computable rational addition; `radd_eq` says it is `+` on `ℚ`. -/
def radd (a b : ℚ) : ℚ := rnorm (a.num * b.den + b.num * a.den) (a.den * b.den)

/-- The rational number 1/10, as a normalized value the kernel can consume. -/
def q01 : ℚ := Rat.mk' 1 10 (by decide) (Nat.coprime_one_left _)

/-! ## wordmetric.py -/

/-- Models Python `str.lower` on the alphabet this program uses:
ASCII letters plus the accented vowels appearing in the metric's
letter-equivalence table. -/
def pyLower (c : Char) : Char :=
  if 'A' ≤ c ∧ c ≤ 'Z' then Char.ofNat (c.toNat + 32)
  else if c = 'Á' then 'á'
  else if c = 'É' then 'é'
  else if c = 'Í' then 'í'
  else if c = 'Ó' then 'ó'
  else if c = 'Ú' then 'ú'
  else c

/-- Tail of `squash`: `a` is the current run's character, `cnt` how many
copies of it have been emitted (Python keeps at most 2 per run). -/
def squashRun (a : Char) (cnt : Nat) : List Char → List Char
  | [] => []
  | b :: bs =>
    if b = a then
      if cnt < 2 then b :: squashRun a (cnt + 1) bs else squashRun a cnt bs
    else b :: squashRun b 1 bs

/-- Python `squash(word)`: collapse every run of 3+ identical consecutive
characters down to exactly 2 (`wordmetric.squash`). -/
def squash : List Char → List Char
  | [] => []
  | a :: as => a :: squashRun a 1 as

/-- The unordered-pair test `{a, b} == {x, y}` used by Python for the
accent table (for `a ≠ b`, which is the only case reaching it). -/
def pairEq (a b x y : Char) : Prop := (a = x ∧ b = y) ∨ (a = y ∧ b = x)

instance (a b x y : Char) : Decidable (pairEq a b x y) :=
  inferInstanceAs (Decidable (_ ∨ _))

/-- Method `LevehnsteinDistance.letter_distance`: 0 for equal characters, 1/10 for
the fixed accented/unaccented vowel pairs, 1 otherwise. -/
def letter_distance (a b : Char) : ℚ :=
  if a = b then 0
  else if pairEq a b 'á' 'a' ∨ pairEq a b 'é' 'e' ∨ pairEq a b 'í' 'i' ∨
          pairEq a b 'ó' 'o' ∨ pairEq a b 'ú' 'u' then q01
  else 1

/-- Python `min` of two values. -/
def qmin (a b : ℚ) : ℚ := if a ≤ b then a else b

/-- One row of the dynamic-programming table, cells `j = 1..n`.
`a` is `s[i-1]`, `aPrev` is `s[i-2]` when `i ≥ 2`; `tPrev` is `t[j-2]` when
`j ≥ 2`; `pp` is the suffix of row `i-2` starting at column `j-2`; `prev` is
the suffix of row `i-1` starting at column `j-1` (so its head is the diagonal
cell and the next element the cell above); `left` is `d[i][j-1]`. -/
def levCells (ld : Char → Char → ℚ) (a : Char) (aPrev : Option Char) :
    Option Char → List ℚ → List ℚ → ℚ → List Char → List ℚ
  | _, _, _, _, [] => []
  | tPrev, pp, prev, left, b :: bs =>
    let diag := prev.headD 0
    let up := prev.tail.headD 0
    let replaceCost := radd diag (ld a b)
    let deleteCost := radd up 1
    let insertCost := radd left 1
    let base := qmin replaceCost (qmin deleteCost insertCost)
    let cell :=
      match aPrev, tPrev with
      | some a2, some b2 => qmin base (radd (radd (radd (pp.headD 0) (ld a2 b)) (ld a b2)) 1)
      | _, _ => base
    let pp2 :=
      match tPrev with
      | some _ => pp.tail
      | none => pp
    cell :: levCells ld a aPrev (some b) pp2 prev.tail cell bs

/-- Rows `i = 1..m` of the table; returns the final row. `pp` is row `i-2`,
`prev` row `i-1`, `aPrev` is `s[i-2]`, `i` the current row index. -/
def levRows (ld : Char → Char → ℚ) (t : List Char) :
    List ℚ → List ℚ → Option Char → ℚ → List Char → List ℚ
  | _, prev, _, _, [] => prev
  | pp, prev, aPrev, i, a :: as =>
    let row := i :: levCells ld a aPrev none pp prev i t
    levRows ld t prev row (some a) (radd i 1) as

/-- The dynamic program of `LevehnsteinDistance.edit_distance` (after
normalization): first row/column are `0..n` / `0..m`, each inner cell is the
minimum of substitution, deletion, insertion and (for `i,j ≥ 2`)
transposition costs; the result is `d[m][n]`. -/
def edit_distance_core (ld : Char → Char → ℚ) (s t : List Char) : ℚ :=
  let row0 : List ℚ := (List.range (t.length + 1)).map (fun j => (j : ℚ))
  (levRows ld t row0 row0 none 1 s).getLastD 0

/-- Method `LevehnsteinDistance.edit_distance`: case-fold, squash runs, then run
the dynamic program with `letter_distance` costs. -/
def edit_distance (s t : List Char) : ℚ :=
  edit_distance_core letter_distance (squash (s.map pyLower)) (squash (t.map pyLower))

/-! ## spelling.py : data model -/

/-- Class `Suggestion`: a word, a frequency count and a distance.  Python equality
and hashing use the word alone; set-like collections below deduplicate by
`term` accordingly. -/
structure Sugg where
  term : List Char
  count : Nat
  distance : ℚ
  deriving DecidableEq

/-- The terms of a suggestion list. -/
def termsOf (l : List Sugg) : List (List Char) := l.map Sugg.term

/-- Python `s in set_of_suggestions` (equality by term). -/
def hasTerm (l : List Sugg) (t : List Char) : Bool :=
  l.any fun s => decide (s.term = t)

/-- Python `set.add` for suggestion sets (insertion order retained). -/
def addSet (l : List Sugg) (s : Sugg) : List Sugg :=
  if hasTerm l s.term then l else l ++ [s]

/-- Python `set.update` for suggestion sets: add the elements of the second
set in order, skipping terms already present. -/
def unionSugg : List Sugg → List Sugg → List Sugg
  | acc, [] => acc
  | acc, s :: rest => unionSugg (addSet acc s) rest

/-! ## spelling.py : `FarooSpellingCorrector.edits`

The recursion terminates because each deletion shortens the entry; it is
written with an explicit fuel equal to the entry length so that it is
structurally recursive and kernel-computable. -/

/-- The loop body of `edits`: for each index `i`, delete the `i`-th
character; if the result is new, record it at the current deletion count
and (when `doRec`) union in the recursive deletions `rec` of the result. -/
def editsFold (entry : List Char) (dist : Nat) (doRec : Bool)
    (rec : List Char → List Sugg) : List Nat → List Sugg → List Sugg
  | [], acc => acc
  | i :: is, acc =>
    let modified := entry.eraseIdx i
    let acc2 :=
      if hasTerm acc modified then acc
      else
        let acc3 := acc ++ [⟨modified, 0, (dist : ℚ)⟩]
        if doRec then unionSugg acc3 (rec modified) else acc3
    editsFold entry dist doRec rec is acc2

/-- Fuel-indexed body of `edits`; `editsF (entry.length) entry maxD 1` is
the method itself.  Entries of length ≤ 1 produce nothing; otherwise every
single-character deletion is recorded at the current `dist`, recursing while
`dist < maxD`. -/
def editsF : Nat → List Char → Nat → Nat → List Sugg
  | 0, _, _, _ => []
  | f + 1, entry, maxD, dist =>
    if 1 < entry.length then
      editsFold entry dist (decide (dist < maxD))
        (fun m => editsF f m maxD (dist + 1)) (List.range entry.length) []
    else []

/-- Method `FarooSpellingCorrector.edits(entry, max_distance)` (with the initial
`distance=1` of the Python signature). -/
def edits (entry : List Char) (maxD : Nat) : List Sugg :=
  editsF entry.length entry maxD 1

/-! ## spelling.py : `FarooSpellingCorrector` state -/

/-- Constructor configuration (the pluggable metric is passed separately). -/
structure Config where
  max_distance : Nat
  keep_all_suggestions : Bool

/-- The two dictionaries of the corrector, as association lists:
`dictionary` maps a word to its frequency count, `suggestions` maps a
deletion variant to its suggestion list. -/
structure State where
  dictionary : List (List Char × Nat)
  suggestions : List (List Char × List Sugg)
  deriving DecidableEq

/-- The empty corrector state. -/
def emptyState : State := ⟨[], []⟩

/-- Association-list lookup (Python dict access). -/
def lookupA {β : Type} : List (List Char × β) → List Char → Option β
  | [], _ => none
  | (k, b) :: rest, k' => if k = k' then some b else lookupA rest k'

/-- Association-list update, appending new keys at the end
(Python dicts keep insertion order; no claim depends on key order). -/
def setA {β : Type} : List (List Char × β) → List Char → β → List (List Char × β)
  | [], k, b => [(k, b)]
  | (k0, b0) :: rest, k, b =>
    if k0 = k then (k, b) :: rest else (k0, b0) :: setA rest k b

/-- Access `self.dictionary[w]` (read-only view; the transient `None` default the
Python `defaultdict` stores is immediately overwritten in `add_entry`). -/
def lookupD (st : State) (k : List Char) : Option Nat := lookupA st.dictionary k

/-- Access `self.suggestions[w]` without the `defaultdict` insertion effect. -/
def lookupS (st : State) (k : List Char) : Option (List Sugg) := lookupA st.suggestions k

/-- Suggestion list for a key, defaulting to `[]` (the value a fresh
`defaultdict(list)` entry holds). -/
def suggGetD (st : State) (k : List Char) : List Sugg := (lookupS st k).getD []

/-- Method `FarooSpellingCorrector.keep_lowest_distance(suggestion_list, suggestion)`:
clear the list when it is nonempty, the mode is not keep-all and its head is
strictly farther than the new suggestion; then append the new suggestion
unless the list head is strictly closer (keep-all always appends). -/
def keep_lowest_distance (keepAll : Bool) (l : List Sugg) (s : Sugg) : List Sugg :=
  let l1 := if ¬keepAll ∧ l ≠ [] ∧ s.distance < (l.headD s).distance then [] else l
  if keepAll ∨ l1 = [] ∨ s.distance ≤ (l1.headD s).distance then l1 ++ [s] else l1

/-- Method `FarooSpellingCorrector.add_entry(entry)`.  A known word only has its
count bumped.  A new word gets count 1, its own suggestion list is reset to
the self-mapping at distance 0, and each deletion variant's list is updated
through `keep_lowest_distance` with a `Suggestion(entry, distance=deletion
count)` (count 0). -/
def add_entry (cfg : Config) (st : State) (entry : List Char) : State × Bool :=
  match lookupD st entry with
  | some c => (⟨setA st.dictionary entry (c + 1), st.suggestions⟩, false)
  | none =>
    let deletes := edits entry cfg.max_distance
    let st1 : State := ⟨setA st.dictionary entry 1,
      setA st.suggestions entry [⟨entry, 0, 0⟩]⟩
    let st2 := deletes.foldl (fun s d =>
      ⟨s.dictionary,
        setA s.suggestions d.term
          (keep_lowest_distance cfg.keep_all_suggestions (suggGetD s d.term)
            ⟨entry, 0, d.distance⟩)⟩) st1
    (st2, true)

/-- Method `FarooSpellingCorrector.add_corpus(corpus)`: fold `add_entry`, counting
newly created words. -/
def add_corpus (cfg : Config) (st : State) (ws : List (List Char)) : State × Nat :=
  ws.foldl (fun p w =>
    let r := add_entry cfg p.1 w
    (r.1, p.2 + if r.2 then 1 else 0)) (st, 0)

/-- The state after inserting a corpus into a fresh corrector. -/
def buildState (cfg : Config) (ws : List (List Char)) : State :=
  (add_corpus cfg emptyState ws).1

/-- The state part of repeated insertion (equal to `add_corpus`'s state,
see `buildState_eq`). -/
def insertAll (cfg : Config) (st : State) (ws : List (List Char)) : State :=
  ws.foldl (fun s w => (add_entry cfg s w).1) st

/-! ## spelling.py : `FarooSpellingCorrector.suggest` -/

/-- The distance the loop body of `suggest` uses for a stored suggestion
`s` met under popped candidate `cand`: the stored deletion count for a
self-identity hit, otherwise the metric distance between the popped
candidate term and the original query word (`spelling.py` lines 262-264). -/
def usedDistance (metric : List Char → List Char → ℚ) (word : List Char)
    (cand s : Sugg) : ℚ :=
  if s.term = cand.term then s.distance else metric cand.term word

/-- One iteration of the inner `for candidate_suggestion in
candidate_suggestions` loop: reject when the distance exceeds
`max_distance`; otherwise in keep-all mode (or on an empty result set) just
add; otherwise skip when some accepted suggestion's stored distance is
strictly smaller, restart the result set when it is strictly larger, and
add on ties.  (Python iterates a hash set; the model keeps the accepted
suggestions in insertion order and compares against the first, a fixed
choice of Python's `next(iter(...))`.) -/
def stepSugg (cfg : Config) (metric : List Char → List Char → ℚ)
    (word : List Char) (cand : Sugg) (acc : List Sugg) (s : Sugg) : List Sugg :=
  let d := usedDistance metric word cand s
  if d ≤ (cfg.max_distance : ℚ) then
    match acc, cfg.keep_all_suggestions with
    | s0 :: _, false =>
      if s0.distance < d then acc
      else if d < s0.distance then [s]
      else addSet acc s
    | _, _ => addSet acc s
  else acc

/-- Access `self.suggestions[term]` as `suggest` performs it: a `defaultdict`
access, which inserts an empty list under a missing key. -/
def suggGet (st : State) (k : List Char) : List Sugg × State :=
  match lookupS st k with
  | some l => (l, st)
  | none => ([], ⟨st.dictionary, setA st.suggestions k []⟩)

/-- Enqueue the fresh deletion edits of a popped candidate, skipping seen
terms (`seen` is Python's set of Suggestion, which hashes by term). -/
def enqueueEdits : List Sugg → List Sugg → List (List Char) →
    List Sugg × List (List Char)
  | [], q, seen => (q, seen)
  | e :: es, q, seen =>
    if seen.any (fun t => decide (t = e.term)) then enqueueEdits es q seen
    else enqueueEdits es (q ++ [e]) (seen ++ [e.term])

/-- Sort key of the final `sorted(suggestions, key=lambda s: (s.distance,
s.count))`. -/
def suggLE (a b : Sugg) : Prop :=
  a.distance < b.distance ∨ (a.distance = b.distance ∧ a.count ≤ b.count)

instance : DecidableRel suggLE := fun a b =>
  inferInstanceAs
    (Decidable (a.distance < b.distance ∨ (a.distance = b.distance ∧ a.count ≤ b.count)))

instance : IsTotal Sugg suggLE :=
  ⟨fun a b => by
    rcases lt_trichotomy a.distance b.distance with h | h | h
    · exact Or.inl (Or.inl h)
    · rcases Nat.le_total a.count b.count with hc | hc
      · exact Or.inl (Or.inr ⟨h, hc⟩)
      · exact Or.inr (Or.inr ⟨h.symm, hc⟩)
    · exact Or.inr (Or.inl h)⟩

instance : IsTrans Sugg suggLE :=
  ⟨fun a b c hab hbc => by
    rcases hab with h1 | ⟨h1, h1c⟩ <;> rcases hbc with h2 | ⟨h2, h2c⟩
    · exact Or.inl (h1.trans h2)
    · exact Or.inl (h2 ▸ h1)
    · exact Or.inl (h1 ▸ h2)
    · exact Or.inr ⟨h1.trans h2, h1c.trans h2c⟩⟩

/-- The `while len(candidates) > 0` loop of `suggest`, with explicit fuel.
Each iteration pops one candidate, folds the inner loop over its stored
suggestion list (a `defaultdict` access that may add an empty-list key),
and, when the candidate's recorded distance is below `max_distance`,
enqueues its unseen one-character deletions.  When the queue empties, the
accepted set is returned sorted by `(distance, count)` (a stable sort, as
Python's). -/
def suggestLoop (cfg : Config) (metric : List Char → List Char → ℚ)
    (word : List Char) :
    Nat → State → List Sugg → List (List Char) → List Sugg →
      Option (List Sugg × State)
  | 0, _, _, _, _ => none
  | _ + 1, st, [], _, acc => some (List.insertionSort suggLE acc, st)
  | fuel + 1, st, cand :: rest, seen, acc =>
    let gs := suggGet st cand.term
    let acc2 := gs.1.foldl (stepSugg cfg metric word cand) acc
    if cand.distance < (cfg.max_distance : ℚ) then
      let p := enqueueEdits (edits cand.term 1) rest seen
      suggestLoop cfg metric word fuel gs.2 p.1 p.2 acc2
    else
      suggestLoop cfg metric word fuel gs.2 rest seen acc2

/-- Method `FarooSpellingCorrector.suggest(word)`.  The fuel `2 ^ word.length + 1`
dominates the search space (every queued term is a sublist of the query and
is enqueued at most once); totality is proved below.  Returns the ranked
suggestions together with the (possibly grown) state. -/
def suggest (cfg : Config) (metric : List Char → List Char → ℚ)
    (st : State) (word : List Char) : Option (List Sugg × State) :=
  suggestLoop cfg metric word (2 ^ word.length + 1) st
    [⟨word, 1, 0⟩] [word] []

/-- Method `FarooSpellingCorrector.correct(word)`: first ranked suggestion, if
any. -/
def correct (cfg : Config) (metric : List Char → List Char → ℚ)
    (st : State) (word : List Char) : Option (Option Sugg × State) :=
  (suggest cfg metric st word).map fun p => (p.1.head?, p.2)

/-- Ranked suggestion words only (used to state concrete runs). -/
def suggestTerms (cfg : Config) (st : State) (word : List Char) :
    Option (List (List Char)) :=
  (suggest cfg edit_distance st word).map fun p => termsOf p.1

/-- Word of the correction only (used to state concrete runs). -/
def correctTerm (cfg : Config) (st : State) (word : List Char) :
    Option (Option (List Char)) :=
  (correct cfg edit_distance st word).map fun p => p.1.map Sugg.term

/-! ## Specification-side predicates -/

/-- Variant relation: `v` is obtainable from `w` by deleting exactly `i` characters at any
positions: equivalently, `v` is a sublist of `w` that is `i` characters
shorter. -/
def DeletesTo (w v : List Char) (i : Nat) : Prop :=
  List.Sublist v w ∧ v.length + i = w.length

instance (w v : List Char) (i : Nat) : Decidable (DeletesTo w v i) :=
  inferInstanceAs (Decidable (List.Sublist v w ∧ v.length + i = w.length))

/-- The spec's deletion-variant relation (§3): `v` is obtainable from the
dictionary word `w` by deleting between 1 and `maxD` characters. -/
def ProducesWithin (maxD : Nat) (w v : List Char) : Prop :=
  List.Sublist v w ∧ v.length < w.length ∧ w.length ≤ v.length + maxD

instance (maxD : Nat) (w v : List Char) : Decidable (ProducesWithin maxD w v) :=
  inferInstanceAs
    (Decidable (List.Sublist v w ∧ v.length < w.length ∧ w.length ≤ v.length + maxD))

/-- Word membership: `w` is a dictionary word of the state. -/
def wordIn (st : State) (w : List Char) : Prop := (lookupD st w).isSome

/-- The deletion distance at which dictionary word `w` is indexed under key
`v` by the code: 0 for the self-mapping, the (unique) deletion count for a
nonempty proper deletion variant within `maxD`, `none` otherwise. -/
def prodDist (maxD : Nat) (w v : List Char) : Option ℚ :=
  if v = w then some 0
  else if v ≠ [] ∧ ProducesWithin maxD w v then
    some ((w.length - v.length : Nat) : ℚ)
  else none

/-- Every suggestion list stored in the state carries count 0. -/
def CountsZero (st : State) : Prop :=
  ∀ k l, lookupS st k = some l → ∀ s ∈ l, s.count = 0

/-- What a query may do to the state: the dictionary is untouched, every
existing suggestion list is untouched, and a previously missing key either
stays missing or appears bound to the empty list. -/
def QueryPres (st st2 : State) : Prop :=
  st2.dictionary = st.dictionary ∧
  (∀ k l, lookupS st k = some l → lookupS st2 k = some l) ∧
  (∀ k, lookupS st k = none → lookupS st2 k = none ∨ lookupS st2 k = some [])

/-- Termination measure of the `suggest` loop: queue length plus the number
of deletion variants of the query not yet seen. -/
def qMu (word : List Char) (q : List Sugg) (seen : List (List Char)) : Nat :=
  q.length + ((word.sublists.dedup).filter fun t => decide (t ∉ seen)).length

/-- The minimal-distance retention invariant of the index (keep-all mode
disabled): a missing key has no producer among the dictionary words, and a
present key's list holds exactly the dictionary words indexed under it at
the globally minimal recorded distance, all entries sharing that
distance. -/
def MinOnly (maxD : Nat) (st : State) : Prop :=
  ∀ v : List Char,
    ((lookupS st v = none) → ∀ w, wordIn st w → prodDist maxD w v = none) ∧
    (∀ l, lookupS st v = some l →
      ∃ dmin : ℚ, l ≠ [] ∧
        (∀ s ∈ l, s.distance = dmin ∧ s.count = 0) ∧
        (∀ w, w ∈ termsOf l ↔ wordIn st w ∧ prodDist maxD w v = some dmin) ∧
        (∀ w d, wordIn st w → prodDist maxD w v = some d → dmin ≤ d))

end Alpha

namespace Alpha

/-! ## Rational arithmetic: bridging the computable operations -/

theorem rat_mk_congr {n1 n2 : Int} {d1 d2 : Nat} {h1 c1 h2 c2}
    (hn : n1 = n2) (hd : d1 = d2) :
    (Rat.mk' n1 d1 h1 c1 : ℚ) = Rat.mk' n2 d2 h2 c2 := by
  subst hn; subst hd; rfl

theorem sgcdF_eq : ∀ f x y, x ≤ f → sgcdF (f + 1) x y = Nat.gcd x y := by
  intro f
  induction f with
  | zero =>
    intro x y hx
    have hx0 : x = 0 := by omega
    subst hx0
    simp [sgcdF]
  | succ f ih =>
    intro x y hx
    match x with
    | 0 => simp [sgcdF]
    | x + 1 =>
      have h2 : y % (x + 1) ≤ f := by
        have := Nat.mod_lt y (show 0 < x + 1 by omega)
        omega
      rw [show sgcdF (f + 1 + 1) (x + 1) y = sgcdF (f + 1) (y % (x + 1)) (x + 1) from rfl,
        ih _ _ h2, Nat.gcd_succ]

theorem sgcd_eq (x y : Nat) : sgcd x y = Nat.gcd x y :=
  sgcdF_eq x x y le_rfl

theorem rnorm_eq_mkRat (num : Int) (den : Nat) : rnorm num den = mkRat num den := by
  show (if den_nz : den = 0 then ({ num := 0 } : ℚ) else _) = mkRat num den
  by_cases hd : den = 0
  · rw [dif_pos hd, mkRat, dif_pos hd]
  · rw [dif_neg hd, mkRat, dif_neg hd, Rat.normalize, Rat.maybeNormalize]
    by_cases hg : sgcd num.natAbs den = 1
    · rw [dif_pos hg, dif_pos (by rw [← sgcd_eq]; exact hg)]
    · rw [dif_neg hg, dif_neg (by rw [← sgcd_eq]; exact hg)]
      exact rat_mk_congr (by rw [sgcd_eq]) (by rw [sgcd_eq])

theorem radd_eq (a b : ℚ) : radd a b = a + b := by
  rw [radd, rnorm_eq_mkRat, Rat.add_def']

theorem q01_eq : q01 = 1 / 10 := by
  rw [q01, Rat.mk'_eq_divInt, Rat.divInt_eq_div]
  norm_num

/-! ## Small helpers about suggestion sets -/

theorem hasTerm_iff (l : List Sugg) (t : List Char) :
    hasTerm l t = true ↔ t ∈ termsOf l := by
  simp [hasTerm, termsOf, List.any_eq_true, List.mem_map]

theorem termsOf_append (l1 l2 : List Sugg) :
    termsOf (l1 ++ l2) = termsOf l1 ++ termsOf l2 := by
  simp [termsOf]

theorem mem_termsOf_addSet (l : List Sugg) (s : Sugg) (t : List Char) :
    t ∈ termsOf (addSet l s) ↔ t ∈ termsOf l ∨ t = s.term := by
  rw [addSet]
  by_cases h : hasTerm l s.term = true
  · rw [if_pos h]
    constructor
    · exact Or.inl
    · rintro (h1 | rfl)
      · exact h1
      · exact (hasTerm_iff _ _).1 h
  · rw [if_neg h, termsOf_append]
    simp [termsOf]

theorem mem_addSet (l : List Sugg) (s x : Sugg) :
    x ∈ addSet l s → x ∈ l ∨ x = s := by
  rw [addSet]
  split
  · exact Or.inl
  · intro hx
    rcases List.mem_append.1 hx with h | h
    · exact Or.inl h
    · exact Or.inr (List.mem_singleton.1 h)

theorem mem_unionSugg (a b : List Sugg) :
    ∀ x ∈ unionSugg a b, x ∈ a ∨ x ∈ b := by
  induction b generalizing a with
  | nil => intro x hx; exact Or.inl hx
  | cons s rest ih =>
    intro x hx
    rcases ih (addSet a s) x hx with h | h
    · rcases mem_addSet a s x h with h2 | h2
      · exact Or.inl h2
      · exact Or.inr (h2 ▸ List.mem_cons_self s rest)
    · exact Or.inr (List.mem_cons_of_mem s h)

/-! ## Association-list lemmas -/

theorem lookupD_def (st : State) (v : List Char) :
    lookupD st v = lookupA st.dictionary v := rfl

theorem lookupA_setA {β : Type} (m : List (List Char × β)) (k k' : List Char) (b : β) :
    lookupA (setA m k b) k' = if k = k' then some b else lookupA m k' := by
  induction m with
  | nil =>
    by_cases h : k = k' <;> simp [setA, lookupA, h]
  | cons p rest ih =>
    obtain ⟨k0, b0⟩ := p
    by_cases h0 : k0 = k
    · subst h0
      by_cases h : k0 = k' <;> simp [setA, lookupA, h]
    · by_cases h : k = k'
      · subst h
        have hne : ¬ k0 = k := h0
        simp [setA, if_neg h0, lookupA, ih, hne]
      · simp [setA, if_neg h0, lookupA, ih, h]

/-! ## `suggGet` and `stepSugg` lemmas -/

theorem suggGet_fst (st : State) (k : List Char) :
    (suggGet st k).1 = suggGetD st k := by
  rw [suggGet, suggGetD]
  cases h : lookupS st k <;> simp [h]

theorem QueryPres.qrefl (st : State) : QueryPres st st :=
  ⟨rfl, fun _ _ h => h, fun _ h => Or.inl h⟩

theorem QueryPres.qtrans {st1 st2 st3 : State}
    (h12 : QueryPres st1 st2) (h23 : QueryPres st2 st3) : QueryPres st1 st3 := by
  obtain ⟨hd12, hs12, hn12⟩ := h12
  obtain ⟨hd23, hs23, hn23⟩ := h23
  refine ⟨hd23.trans hd12, fun k l h => hs23 k l (hs12 k l h), fun k h => ?_⟩
  rcases hn12 k h with h2 | h2
  · exact hn23 k h2
  · exact Or.inr (hs23 k [] h2)

theorem suggGet_qp (st : State) (k : List Char) : QueryPres st (suggGet st k).2 := by
  cases h : lookupS st k with
  | some l =>
    have h2 : (suggGet st k).2 = st := by rw [suggGet, h]
    rw [h2]
    exact QueryPres.qrefl st
  | none =>
    have h2 : (suggGet st k).2 = ⟨st.dictionary, setA st.suggestions k []⟩ := by
      rw [suggGet, h]
    rw [h2]
    refine ⟨rfl, fun k' l' h' => ?_, fun k' h' => ?_⟩
    · show lookupA (setA st.suggestions k []) k' = some l'
      rw [lookupA_setA]
      by_cases he : k = k'
      · rw [← he] at h'
        rw [h] at h'
        cases h'
      · rw [if_neg he]
        exact h'
    · show lookupA (setA st.suggestions k []) k' = none ∨
        lookupA (setA st.suggestions k []) k' = some []
      rw [lookupA_setA]
      by_cases he : k = k'
      · rw [if_pos he]
        exact Or.inr rfl
      · rw [if_neg he]
        exact Or.inl h'

theorem suggGet_counts (st : State) (k : List Char) (hcz : CountsZero st) :
    (∀ s ∈ (suggGet st k).1, s.count = 0) ∧ CountsZero (suggGet st k).2 := by
  rw [suggGet]
  cases h : lookupS st k with
  | some l => exact ⟨hcz k l h, hcz⟩
  | none =>
    refine ⟨fun s hs => absurd hs (List.not_mem_nil s), fun k' l' h' => ?_⟩
    replace h' : lookupA (setA st.suggestions k []) k' = some l' := h'
    rw [lookupA_setA] at h'
    split at h'
    · cases h'; intro s hs; cases hs
    · exact hcz k' l' h'

theorem stepSugg_cases (cfg : Config) (metric : List Char → List Char → ℚ)
    (word : List Char) (cand : Sugg) (acc : List Sugg) (s : Sugg) :
    stepSugg cfg metric word cand acc s = acc ∨
      stepSugg cfg metric word cand acc s = [s] ∨
      stepSugg cfg metric word cand acc s = addSet acc s := by
  simp only [stepSugg]
  split
  · split
    · split
      · exact Or.inl rfl
      · split
        · exact Or.inr (Or.inl rfl)
        · exact Or.inr (Or.inr rfl)
    · exact Or.inr (Or.inr rfl)
  · exact Or.inl rfl

theorem stepSugg_counts (cfg : Config) (metric : List Char → List Char → ℚ)
    (word : List Char) (cand : Sugg) (acc : List Sugg) (s : Sugg)
    (hacc : ∀ x ∈ acc, x.count = 0) (hs : s.count = 0) :
    ∀ x ∈ stepSugg cfg metric word cand acc s, x.count = 0 := by
  intro x hx
  rcases stepSugg_cases cfg metric word cand acc s with h | h | h <;> rw [h] at hx
  · exact hacc x hx
  · rw [List.mem_singleton.1 hx]; exact hs
  · rcases mem_addSet acc s x hx with h2 | h2
    · exact hacc x h2
    · rw [h2]; exact hs

theorem foldl_stepSugg_counts (cfg : Config) (metric : List Char → List Char → ℚ)
    (word : List Char) (cand : Sugg) :
    ∀ (ls acc : List Sugg), (∀ x ∈ acc, x.count = 0) → (∀ s ∈ ls, s.count = 0) →
      ∀ x ∈ ls.foldl (stepSugg cfg metric word cand) acc, x.count = 0 := by
  intro ls
  induction ls with
  | nil => intro acc hacc _ x hx; exact hacc x hx
  | cons s rest ih =>
    intro acc hacc hls x hx
    exact ih _ (stepSugg_counts cfg metric word cand acc s hacc
        (hls s (List.mem_cons_self s rest)))
      (fun y hy => hls y (List.mem_cons_of_mem s hy)) x hx

/-! ## `suggest` loop lemmas -/

theorem suggestLoop_pres (cfg : Config) (metric : List Char → List Char → ℚ)
    (word : List Char) :
    ∀ (fuel : Nat) (st : State) (q : List Sugg) (seen : List (List Char))
      (acc res : List Sugg) (st2 : State),
      suggestLoop cfg metric word fuel st q seen acc = some (res, st2) →
      QueryPres st st2 := by
  intro fuel
  induction fuel with
  | zero => intro st q seen acc res st2 h; cases h
  | succ fuel ih =>
    intro st q seen acc res st2 h
    match q with
    | [] =>
      rw [suggestLoop] at h
      cases h
      exact QueryPres.qrefl st
    | cand :: rest =>
      rw [suggestLoop] at h
      split at h
      · exact (suggGet_qp st cand.term).qtrans (ih _ _ _ _ _ _ h)
      · exact (suggGet_qp st cand.term).qtrans (ih _ _ _ _ _ _ h)

theorem suggestLoop_sorted (cfg : Config) (metric : List Char → List Char → ℚ)
    (word : List Char) :
    ∀ (fuel : Nat) (st : State) (q : List Sugg) (seen : List (List Char))
      (acc res : List Sugg) (st2 : State),
      suggestLoop cfg metric word fuel st q seen acc = some (res, st2) →
      List.Sorted suggLE res := by
  intro fuel
  induction fuel with
  | zero => intro st q seen acc res st2 h; cases h
  | succ fuel ih =>
    intro st q seen acc res st2 h
    match q with
    | [] =>
      rw [suggestLoop] at h
      cases h
      exact List.sorted_insertionSort suggLE acc
    | cand :: rest =>
      rw [suggestLoop] at h
      split at h
      · exact ih _ _ _ _ _ _ h
      · exact ih _ _ _ _ _ _ h

theorem suggestLoop_counts (cfg : Config) (metric : List Char → List Char → ℚ)
    (word : List Char) :
    ∀ (fuel : Nat) (st : State) (q : List Sugg) (seen : List (List Char))
      (acc res : List Sugg) (st2 : State),
      CountsZero st → (∀ s ∈ acc, s.count = 0) →
      suggestLoop cfg metric word fuel st q seen acc = some (res, st2) →
      CountsZero st2 ∧ ∀ s ∈ res, s.count = 0 := by
  intro fuel
  induction fuel with
  | zero => intro st q seen acc res st2 _ _ h; cases h
  | succ fuel ih =>
    intro st q seen acc res st2 hcz hacc h
    match q with
    | [] =>
      rw [suggestLoop] at h
      cases h
      refine ⟨hcz, fun s hs => hacc s ?_⟩
      exact (List.perm_insertionSort suggLE acc).mem_iff.1 hs
    | cand :: rest =>
      rw [suggestLoop] at h
      have hget := suggGet_counts st cand.term hcz
      have hacc2 : ∀ x ∈ (suggGet st cand.term).1.foldl
          (stepSugg cfg metric word cand) acc, x.count = 0 :=
        foldl_stepSugg_counts cfg metric word cand _ acc hacc hget.1
      split at h
      · exact ih _ _ _ _ _ _ hget.2 hacc2 h
      · exact ih _ _ _ _ _ _ hget.2 hacc2 h

/-! ## Shape of the deletion generator's output -/

theorem editsFold_mem (entry : List Char) (dist : Nat) (doRec : Bool)
    (rec : List Char → List Sugg) :
    ∀ (idxs : List Nat) (acc : List Sugg), ∀ s ∈ editsFold entry dist doRec rec idxs acc,
      s ∈ acc ∨ (∃ i ∈ idxs, s = ⟨entry.eraseIdx i, 0, (dist : ℚ)⟩) ∨
        (∃ i ∈ idxs, doRec = true ∧ s ∈ rec (entry.eraseIdx i)) := by
  intro idxs
  induction idxs with
  | nil => intro acc s hs; exact Or.inl hs
  | cons i is ih =>
    intro acc s hs
    rw [editsFold] at hs
    rcases ih _ s hs with h | h | h
    · split at h
      · exact Or.inl h
      · split at h
        · next hdr =>
          rcases mem_unionSugg _ _ s h with h2 | h2
          · rcases List.mem_append.1 h2 with h3 | h3
            · exact Or.inl h3
            · exact Or.inr (Or.inl ⟨i, List.mem_cons_self i is, List.mem_singleton.1 h3⟩)
          · exact Or.inr (Or.inr ⟨i, List.mem_cons_self i is, hdr, h2⟩)
        · rcases List.mem_append.1 h with h3 | h3
          · exact Or.inl h3
          · exact Or.inr (Or.inl ⟨i, List.mem_cons_self i is, List.mem_singleton.1 h3⟩)
    · obtain ⟨j, hj, hsj⟩ := h
      exact Or.inr (Or.inl ⟨j, List.mem_cons_of_mem i hj, hsj⟩)
    · obtain ⟨j, hj, hdr, hsj⟩ := h
      exact Or.inr (Or.inr ⟨j, List.mem_cons_of_mem i hj, hdr, hsj⟩)

theorem editsF_shape :
    ∀ (f : Nat) (entry : List Char) (maxD dist : Nat),
      ∀ s ∈ editsF f entry maxD dist,
        List.Sublist s.term entry ∧ s.term ≠ [] ∧
          s.term.length < entry.length ∧ s.count = 0 := by
  intro f
  induction f with
  | zero => intro entry maxD dist s hs; cases hs
  | succ f ih =>
    intro entry maxD dist s hs
    rw [editsF] at hs
    split at hs
    · next hlen =>
      rcases editsFold_mem entry dist _ _ _ [] s hs with h | h | h
      · cases h
      · obtain ⟨i, hi, rfl⟩ := h
        have hilt : i < entry.length := List.mem_range.1 hi
        have hlen2 : (entry.eraseIdx i).length = entry.length - 1 := by
          rw [List.length_eraseIdx, if_pos hilt]
        dsimp only
        refine ⟨List.eraseIdx_sublist entry i, ?_, by omega, rfl⟩
        rw [← List.length_pos, hlen2]
        omega
      · obtain ⟨i, hi, _, hsi⟩ := h
        have hilt : i < entry.length := List.mem_range.1 hi
        have hlen2 : (entry.eraseIdx i).length = entry.length - 1 := by
          rw [List.length_eraseIdx, if_pos hilt]
        obtain ⟨h1, h2, h3, h4⟩ := ih _ maxD (dist + 1) s hsi
        exact ⟨h1.trans (List.eraseIdx_sublist entry i), h2, by omega, h4⟩
    · cases hs

theorem mem_termsOf (l : List Sugg) (t : List Char) :
    t ∈ termsOf l ↔ ∃ s ∈ l, s.term = t := by
  simp [termsOf, List.mem_map]

/-! ## Sublists and single deletions -/

theorem exists_sublist_eraseIdx {v w : List Char} (hsub : List.Sublist v w) :
    v.length < w.length → ∃ i, i < w.length ∧ List.Sublist v (w.eraseIdx i) := by
  induction hsub with
  | slnil => intro h; omega
  | @cons l1 l2 a hsub ih =>
    intro _
    by_cases hl : l1.length < l2.length
    · obtain ⟨i, hi, hs⟩ := ih hl
      refine ⟨i + 1, by simp; omega, ?_⟩
      rw [List.eraseIdx_cons_succ]
      exact hs.cons a
    · have hlen : l1.length = l2.length := by
        have := hsub.length_le
        omega
      have heq : l1 = l2 := hsub.eq_of_length hlen
      refine ⟨0, by simp, ?_⟩
      rw [List.eraseIdx_cons_zero, heq]
  | @cons₂ l1 l2 a hsub ih =>
    intro hlen
    have hl : l1.length < l2.length := by
      simp only [List.length_cons] at hlen
      omega
    obtain ⟨i, hi, hs⟩ := ih hl
    refine ⟨i + 1, by simp; omega, ?_⟩
    rw [List.eraseIdx_cons_succ]
    exact hs.cons₂ a

/-! ## The deletion generator deduplicates -/

theorem nodup_addSet (l : List Sugg) (s : Sugg) (h : (termsOf l).Nodup) :
    (termsOf (addSet l s)).Nodup := by
  rw [addSet]
  split
  · exact h
  · next hin =>
    rw [termsOf_append]
    rw [List.nodup_append]
    refine ⟨h, List.nodup_singleton s.term, fun t ht ht2 => ?_⟩
    have : t = s.term := by simpa [termsOf] using ht2
    subst this
    exact hin ((hasTerm_iff l s.term).2 ht)

theorem nodup_unionSugg :
    ∀ (b a : List Sugg), (termsOf a).Nodup → (termsOf (unionSugg a b)).Nodup := by
  intro b
  induction b with
  | nil => intro a h; exact h
  | cons s rest ih => intro a h; exact ih _ (nodup_addSet a s h)

theorem nodup_editsFold (entry : List Char) (dist : Nat) (doRec : Bool)
    (rec : List Char → List Sugg) :
    ∀ (idxs : List Nat) (acc : List Sugg), (termsOf acc).Nodup →
      (termsOf (editsFold entry dist doRec rec idxs acc)).Nodup := by
  intro idxs
  induction idxs with
  | nil => intro acc h; exact h
  | cons i is ih =>
    intro acc h
    rw [editsFold]
    refine ih _ ?_
    split
    · exact h
    · next hin =>
      have hadd : acc ++ [⟨entry.eraseIdx i, 0, (dist : ℚ)⟩] =
          addSet acc ⟨entry.eraseIdx i, 0, (dist : ℚ)⟩ := by
        rw [addSet, if_neg hin]
      split
      · rw [hadd]
        exact nodup_unionSugg _ _ (nodup_addSet acc _ h)
      · rw [hadd]
        exact nodup_addSet acc _ h

theorem nodup_editsF (entry : List Char) (maxD dist : Nat) :
    ∀ f, (termsOf (editsF f entry maxD dist)).Nodup := by
  intro f
  cases f with
  | zero => exact List.nodup_nil
  | succ f =>
    rw [editsF]
    split
    · exact nodup_editsFold entry dist _ _ _ [] List.nodup_nil
    · exact List.nodup_nil

/-! ## Monotonicity and closure of the generator's fold -/

theorem termsOf_addSet_mono (l : List Sugg) (s : Sugg) (t : List Char)
    (h : t ∈ termsOf l) : t ∈ termsOf (addSet l s) :=
  (mem_termsOf_addSet l s t).2 (Or.inl h)

theorem termsOf_unionSugg_left :
    ∀ (b a : List Sugg) (t : List Char), t ∈ termsOf a → t ∈ termsOf (unionSugg a b) := by
  intro b
  induction b with
  | nil => intro a t h; exact h
  | cons s rest ih => intro a t h; exact ih _ t (termsOf_addSet_mono a s t h)

theorem termsOf_unionSugg_right :
    ∀ (b a : List Sugg) (t : List Char), t ∈ termsOf b → t ∈ termsOf (unionSugg a b) := by
  intro b
  induction b with
  | nil => intro a t h; cases h
  | cons s rest ih =>
    intro a t h
    rw [termsOf] at h
    rcases List.mem_cons.1 h with rfl | h2
    · exact termsOf_unionSugg_left rest (addSet a s) s.term
        ((mem_termsOf_addSet a s s.term).2 (Or.inr rfl))
    · exact ih (addSet a s) t h2

theorem termsOf_unionSugg_sub (a b : List Sugg) (t : List Char)
    (h : t ∈ termsOf (unionSugg a b)) : t ∈ termsOf a ∨ t ∈ termsOf b := by
  obtain ⟨s, hs, rfl⟩ := (mem_termsOf _ _).1 h
  rcases mem_unionSugg a b s hs with h2 | h2
  · exact Or.inl ((mem_termsOf _ _).2 ⟨s, h2, rfl⟩)
  · exact Or.inr ((mem_termsOf _ _).2 ⟨s, h2, rfl⟩)

theorem editsFold_mono (entry : List Char) (dist : Nat) (doRec : Bool)
    (rec : List Char → List Sugg) :
    ∀ (idxs : List Nat) (acc : List Sugg) (t : List Char), t ∈ termsOf acc →
      t ∈ termsOf (editsFold entry dist doRec rec idxs acc) := by
  intro idxs
  induction idxs with
  | nil => intro acc t h; exact h
  | cons i is ih =>
    intro acc t h
    rw [editsFold]
    refine ih _ t ?_
    split
    · exact h
    · split
      · exact termsOf_unionSugg_left _ _ t (by rw [termsOf_append]; exact List.mem_append.2 (Or.inl h))
      · rw [termsOf_append]; exact List.mem_append.2 (Or.inl h)

theorem editsFold_closure (entry : List Char) (dist : Nat) (doRec : Bool)
    (rec : List Char → List Sugg)
    (hrec : ∀ (u t : List Char), t ∈ termsOf (rec u) → t.length < u.length) :
    ∀ (idxs : List Nat) (acc : List Sugg),
      (∀ i ∈ idxs, i < entry.length) →
      (∀ t ∈ termsOf acc, t.length < entry.length) →
      (∀ t ∈ termsOf acc, t.length = entry.length - 1 →
        doRec = true → ∀ x ∈ termsOf (rec t), x ∈ termsOf acc) →
      ∀ i ∈ idxs,
        entry.eraseIdx i ∈ termsOf (editsFold entry dist doRec rec idxs acc) ∧
        (doRec = true → ∀ x ∈ termsOf (rec (entry.eraseIdx i)),
          x ∈ termsOf (editsFold entry dist doRec rec idxs acc)) := by
  intro idxs
  induction idxs with
  | nil => intro acc _ _ _ i hi; cases hi
  | cons i0 is ih =>
    intro acc hidx hshort hclos i hi
    have hi0lt : i0 < entry.length := hidx i0 (List.mem_cons_self i0 is)
    have hmodlen : (entry.eraseIdx i0).length = entry.length - 1 := by
      rw [List.length_eraseIdx, if_pos hi0lt]
    rw [editsFold]
    by_cases hin : hasTerm acc (entry.eraseIdx i0) = true
    · rw [if_pos hin]
      have hmem : entry.eraseIdx i0 ∈ termsOf acc := (hasTerm_iff _ _).1 hin
      rcases List.mem_cons.1 hi with rfl | his
      · refine ⟨editsFold_mono entry dist doRec rec is acc _ hmem, fun hdr x hx => ?_⟩
        exact editsFold_mono entry dist doRec rec is acc x
          (hclos _ hmem hmodlen hdr x hx)
      · exact ih acc (fun j hj => hidx j (List.mem_cons_of_mem i0 hj)) hshort hclos i his
    · rw [if_neg hin]
      set acc3 := acc ++ [⟨entry.eraseIdx i0, 0, (dist : ℚ)⟩] with hacc3
      have hacc3mem : ∀ t, t ∈ termsOf acc3 ↔ t ∈ termsOf acc ∨ t = entry.eraseIdx i0 := by
        intro t
        rw [hacc3, termsOf_append]
        simp [termsOf]
      -- the updated accumulator, in both doRec cases
      have hmain : ∀ (acc2 : List Sugg),
          (∀ t, t ∈ termsOf acc2 ↔ t ∈ termsOf acc3 ∨
            (doRec = true ∧ t ∈ termsOf (rec (entry.eraseIdx i0)))) →
          (∀ t ∈ termsOf acc2, t.length < entry.length) →
          (∀ t ∈ termsOf acc2, t.length = entry.length - 1 →
            doRec = true → ∀ x ∈ termsOf (rec t), x ∈ termsOf acc2) →
          entry.eraseIdx i0 ∈ termsOf acc2 →
          (doRec = true → ∀ x ∈ termsOf (rec (entry.eraseIdx i0)), x ∈ termsOf acc2) →
          entry.eraseIdx i ∈ termsOf (editsFold entry dist doRec rec is acc2) ∧
          (doRec = true → ∀ x ∈ termsOf (rec (entry.eraseIdx i)),
            x ∈ termsOf (editsFold entry dist doRec rec is acc2)) := by
        intro acc2 hiff hshort2 hclos2 hself hrecin
        rcases List.mem_cons.1 hi with rfl | his
        · refine ⟨editsFold_mono entry dist doRec rec is acc2 _ hself, fun hdr x hx => ?_⟩
          exact editsFold_mono entry dist doRec rec is acc2 x (hrecin hdr x hx)
        · exact ih acc2 (fun j hj => hidx j (List.mem_cons_of_mem i0 hj)) hshort2 hclos2 i his
      split
      · next hdr =>
        refine hmain _ (fun t => ?_) (fun t ht => ?_) (fun t ht hlen hdr2 x hx => ?_) ?_ ?_
        · constructor
          · intro ht
            rcases termsOf_unionSugg_sub acc3 _ t ht with h2 | h2
            · exact Or.inl h2
            · exact Or.inr ⟨hdr, h2⟩
          · rintro (h2 | ⟨_, h2⟩)
            · exact termsOf_unionSugg_left _ _ t h2
            · exact termsOf_unionSugg_right _ _ t h2
        · rcases termsOf_unionSugg_sub acc3 _ t ht with h2 | h2
          · rcases (hacc3mem t).1 h2 with h3 | rfl
            · exact hshort t h3
            · omega
          · have := hrec _ t h2
            omega
        · -- closure in the extended accumulator
          rcases termsOf_unionSugg_sub acc3 _ t ht with h2 | h2
          · rcases (hacc3mem t).1 h2 with h3 | rfl
            · -- an old term: its closure was already inside acc
              exact termsOf_unionSugg_left _ _ x
                (by
                  rw [hacc3mem]
                  exact Or.inl (hclos t h3 hlen hdr2 x hx))
            · -- the newly added one-step deletion: its subtree was just unioned in
              exact termsOf_unionSugg_right _ _ x hx
          · -- a term of the recursive call: too short to need closure
            have := hrec _ t h2
            omega
        · exact termsOf_unionSugg_left _ _ _ (by rw [hacc3mem]; exact Or.inr rfl)
        · intro _ x hx
          exact termsOf_unionSugg_right _ _ x hx
      · next hdr =>
        have hdrf : doRec = false := by
          cases doRec
          · rfl
          · exact absurd rfl hdr
        refine hmain _ (fun t => ?_) (fun t ht => ?_) (fun t ht hlen hdr2 x hx => ?_) ?_ ?_
        · rw [hdrf]
          simp
        · rcases (hacc3mem t).1 ht with h3 | rfl
          · exact hshort t h3
          · omega
        · rw [hdrf] at hdr2; cases hdr2
        · rw [hacc3mem]; exact Or.inr rfl
        · intro hdr2; rw [hdrf] at hdr2; cases hdr2

/-! ## Full characterization of the deletion generator -/

theorem editsF_complete :
    ∀ (f : Nat) (entry : List Char) (maxD dist : Nat) (v : List Char),
      entry.length ≤ f → dist ≤ maxD →
      List.Sublist v entry → v ≠ [] → v.length < entry.length →
      entry.length + dist ≤ v.length + maxD + 1 →
      v ∈ termsOf (editsF f entry maxD dist) := by
  intro f
  induction f with
  | zero =>
    intro entry maxD dist v hf _ _ _ hlt _
    omega
  | succ f ih =>
    intro entry maxD dist v hf hdm hsub hne hlt hbound
    have hvpos : 0 < v.length := List.length_pos.2 hne
    have hentry2 : 1 < entry.length := by omega
    rw [editsF, if_pos hentry2]
    obtain ⟨i, hilt, hvsub⟩ := exists_sublist_eraseIdx hsub hlt
    have hmodlen : (entry.eraseIdx i).length = entry.length - 1 := by
      rw [List.length_eraseIdx, if_pos hilt]
    have hrec : ∀ (u t : List Char),
        t ∈ termsOf (editsF f u maxD (dist + 1)) → t.length < u.length := by
      intro u t ht
      obtain ⟨s, hs, rfl⟩ := (mem_termsOf _ _).1 ht
      exact (editsF_shape f u maxD (dist + 1) s hs).2.2.1
    have hfold := editsFold_closure entry dist (decide (dist < maxD))
      (fun m => editsF f m maxD (dist + 1)) hrec (List.range entry.length) []
      (fun j hj => List.mem_range.1 hj)
      (fun t ht => absurd ht (List.not_mem_nil t))
      (fun t ht => absurd ht (List.not_mem_nil t))
      i (List.mem_range.2 hilt)
    by_cases hj : v.length = entry.length - 1
    · have hveq : v = entry.eraseIdx i := hvsub.eq_of_length (by omega)
      rw [hveq]
      exact hfold.1
    · have hvlt : v.length < (entry.eraseIdx i).length := by omega
      have hdlt : dist < maxD := by omega
      have hdr : decide (dist < maxD) = true := decide_eq_true hdlt
      refine hfold.2 hdr v ?_
      exact ih (entry.eraseIdx i) maxD (dist + 1) v (by omega) (by omega) hvsub hne hvlt
        (by omega)

theorem editsF_dist :
    ∀ (f : Nat) (entry : List Char) (maxD dist : Nat), dist ≤ maxD →
      ∀ s ∈ editsF f entry maxD dist,
        s.distance = ((dist + (entry.length - s.term.length) - 1 : Nat) : ℚ) ∧
          dist + (entry.length - s.term.length) ≤ maxD + 1 := by
  intro f
  induction f with
  | zero => intro entry maxD dist _ s hs; cases hs
  | succ f ih =>
    intro entry maxD dist hdm s hs
    rw [editsF] at hs
    split at hs
    · next hlen =>
      rcases editsFold_mem entry dist _ _ _ [] s hs with h | h | h
      · cases h
      · obtain ⟨i, hi, rfl⟩ := h
        have hilt : i < entry.length := List.mem_range.1 hi
        have hlen2 : (entry.eraseIdx i).length = entry.length - 1 := by
          rw [List.length_eraseIdx, if_pos hilt]
        dsimp only
        constructor
        · congr 1
          omega
        · omega
      · obtain ⟨i, hi, hdr, hsi⟩ := h
        have hilt : i < entry.length := List.mem_range.1 hi
        have hlen2 : (entry.eraseIdx i).length = entry.length - 1 := by
          rw [List.length_eraseIdx, if_pos hilt]
        have hdlt : dist < maxD := of_decide_eq_true hdr
        have hshape := editsF_shape f (entry.eraseIdx i) maxD (dist + 1) s hsi
        obtain ⟨hd1, hd2⟩ := ih (entry.eraseIdx i) maxD (dist + 1) (by omega) s hsi
        have hlt : s.term.length < (entry.eraseIdx i).length := hshape.2.2.1
        constructor
        · rw [hd1]
          congr 1
          omega
        · omega
    · cases hs

theorem editsF_short (f : Nat) (u : List Char) (maxD dist : Nat)
    (h : u.length ≤ 1) : editsF f u maxD dist = [] := by
  cases f with
  | zero => rfl
  | succ f => rw [editsF, if_neg (by omega)]

/-! ## Filter-counting lemmas for termination -/

theorem length_filter_le_of_imp {α : Type} (p q : α → Bool)
    (h : ∀ x, q x = true → p x = true) :
    ∀ l : List α, (l.filter q).length ≤ (l.filter p).length := by
  intro l
  induction l with
  | nil => simp
  | cons a l ih =>
    cases hq : q a with
    | true =>
      rw [List.filter_cons_of_pos hq, List.filter_cons_of_pos (h a hq)]
      simpa using ih
    | false =>
      rw [List.filter_cons_of_neg (by simp [hq])]
      cases hp : p a with
      | true =>
        rw [List.filter_cons_of_pos hp]
        simp only [List.length_cons]
        omega
      | false =>
        rw [List.filter_cons_of_neg (by simp [hp])]
        exact ih

theorem length_filter_lt {α : Type} (p q : α → Bool)
    (h : ∀ x, q x = true → p x = true) (x : α) :
    ∀ l : List α, x ∈ l → p x = true → q x = false →
      (l.filter q).length < (l.filter p).length := by
  intro l
  induction l with
  | nil => intro hx; cases hx
  | cons a l ih =>
    intro hx hp hq
    rcases List.mem_cons.1 hx with rfl | hx2
    · rw [List.filter_cons_of_pos hp, List.filter_cons_of_neg (by simp [hq])]
      simp only [List.length_cons]
      exact Nat.lt_succ_of_le (length_filter_le_of_imp p q h l)
    · cases hqa : q a with
      | true =>
        rw [List.filter_cons_of_pos hqa, List.filter_cons_of_pos (h a hqa)]
        simpa using ih hx2 hp hq
      | false =>
        rw [List.filter_cons_of_neg (by simp [hqa])]
        cases hpa : p a with
        | true =>
          rw [List.filter_cons_of_pos hpa]
          exact (ih hx2 hp hq).trans (Nat.lt_succ_self _)
        | false =>
          rw [List.filter_cons_of_neg (by simp [hpa])]
          exact ih hx2 hp hq

theorem length_filter_lt_len {α : Type} (p : α → Bool) (x : α) :
    ∀ l : List α, x ∈ l → p x = false → (l.filter p).length < l.length := by
  intro l
  induction l with
  | nil => intro hx; cases hx
  | cons a l ih =>
    intro hx hp
    rcases List.mem_cons.1 hx with rfl | hx2
    · rw [List.filter_cons_of_neg (by simp [hp])]
      simp only [List.length_cons]
      exact Nat.lt_succ_of_le (List.length_filter_le p l)
    · cases hpa : p a with
      | true =>
        rw [List.filter_cons_of_pos hpa]
        simpa using ih hx2 hp
      | false =>
        rw [List.filter_cons_of_neg (by simp [hpa])]
        exact (ih hx2 hp).trans (Nat.lt_succ_self _)

/-! ## Termination of the `suggest` loop -/

theorem any_eq_mem (seen : List (List Char)) (t : List Char) :
    (seen.any fun u => decide (u = t)) = true ↔ t ∈ seen := by
  simp [List.any_eq_true]

theorem enqueueEdits_mem :
    ∀ (es q : List Sugg) (seen : List (List Char)),
      ∀ c ∈ (enqueueEdits es q seen).1, c ∈ q ∨ c ∈ es := by
  intro es
  induction es with
  | nil => intro q seen c hc; exact Or.inl hc
  | cons e es ih =>
    intro q seen c hc
    rw [enqueueEdits] at hc
    split at hc
    · rcases ih _ _ c hc with h | h
      · exact Or.inl h
      · exact Or.inr (List.mem_cons_of_mem e h)
    · rcases ih _ _ c hc with h | h
      · rcases List.mem_append.1 h with h2 | h2
        · exact Or.inl h2
        · exact Or.inr (List.mem_singleton.1 h2 ▸ List.mem_cons_self e es)
      · exact Or.inr (List.mem_cons_of_mem e h)

theorem enqueueEdits_mu (word : List Char) :
    ∀ (es q : List Sugg) (seen : List (List Char)),
      (∀ e ∈ es, List.Sublist e.term word) →
      qMu word (enqueueEdits es q seen).1 (enqueueEdits es q seen).2 ≤
        qMu word q seen := by
  intro es
  induction es with
  | nil => intro q seen _; exact le_rfl
  | cons e es ih =>
    intro q seen hes
    rw [enqueueEdits]
    split
    · exact ih q seen fun x hx => hes x (List.mem_cons_of_mem e hx)
    · next hnew =>
      have hnotin : e.term ∉ seen := fun hmem =>
        hnew ((any_eq_mem seen e.term).2 hmem)
      refine (ih _ _ fun x hx => hes x (List.mem_cons_of_mem e hx)).trans ?_
      rw [qMu, qMu, List.length_append, List.length_singleton]
      have hcnt :
          ((word.sublists.dedup).filter fun t =>
              decide (t ∉ seen ++ [e.term])).length <
            ((word.sublists.dedup).filter fun t => decide (t ∉ seen)).length := by
        refine length_filter_lt _ _ ?_ e.term _ ?_ ?_ ?_
        · intro x hx
          simp only [decide_eq_true_eq] at hx ⊢
          intro hmem
          exact hx (List.mem_append.2 (Or.inl hmem))
        · exact List.mem_dedup.2 (List.mem_sublists.2
            (hes e (List.mem_cons_self e es)))
        · simpa using hnotin
        · simp
      omega

theorem suggestLoop_total (cfg : Config) (metric : List Char → List Char → ℚ)
    (word : List Char) :
    ∀ (fuel : Nat) (st : State) (q : List Sugg) (seen : List (List Char))
      (acc : List Sugg),
      (∀ c ∈ q, List.Sublist c.term word) → qMu word q seen < fuel →
      ∃ out, suggestLoop cfg metric word fuel st q seen acc = some out := by
  intro fuel
  induction fuel with
  | zero => intro st q seen acc _ hmu; omega
  | succ fuel ih =>
    intro st q seen acc hq hmu
    match q with
    | [] => exact ⟨_, rfl⟩
    | cand :: rest =>
      have hrest : ∀ c ∈ rest, List.Sublist c.term word := fun c hc =>
        hq c (List.mem_cons_of_mem cand hc)
      have hmurest : qMu word rest seen < fuel := by
        rw [qMu] at hmu ⊢
        simp only [List.length_cons] at hmu
        omega
      rw [suggestLoop]
      split
      · refine ih _ _ _ _ (fun c hc => ?_) ?_
        · rcases enqueueEdits_mem _ rest seen c hc with h | h
          · exact hrest c h
          · have hshape := editsF_shape _ cand.term 1 1 c h
            exact hshape.1.trans (hq cand (List.mem_cons_self cand rest))
        · exact lt_of_le_of_lt
            (enqueueEdits_mu word _ rest seen fun e he =>
              (editsF_shape _ cand.term 1 1 e he).1.trans
                (hq cand (List.mem_cons_self cand rest)))
            hmurest
      · exact ih _ _ _ _ hrest hmurest

theorem qMu_init (word : List Char) :
    qMu word [⟨word, 1, 0⟩] [word] < 2 ^ word.length + 1 := by
  rw [qMu]
  have hmem : word ∈ word.sublists.dedup :=
    List.mem_dedup.2 (List.mem_sublists.2 (List.Sublist.refl word))
  have hfalse : (decide (word ∉ [word])) = false := by simp
  have hcnt := length_filter_lt_len (fun t => decide (t ∉ [word])) word
    word.sublists.dedup hmem hfalse
  have hdedup : word.sublists.dedup.length ≤ word.sublists.length :=
    (List.dedup_sublist word.sublists).length_le
  have hpow := List.length_sublists word
  simp only [List.length_singleton]
  omega

/-! ## Counts-zero infrastructure -/

theorem keep_lowest_sub (ka : Bool) (l : List Sugg) (s : Sugg) :
    ∀ x ∈ keep_lowest_distance ka l s, x ∈ l ∨ x = s := by
  intro x hx
  simp only [keep_lowest_distance] at hx
  by_cases h1 : ¬ka = true ∧ l ≠ [] ∧ s.distance < (l.headD s).distance
  · rw [if_pos h1, if_pos (Or.inr (Or.inl rfl))] at hx
    exact Or.inr (by simpa using hx)
  · rw [if_neg h1] at hx
    split at hx
    · rcases List.mem_append.1 hx with h | h
      · exact Or.inl h
      · exact Or.inr (List.mem_singleton.1 h)
    · exact Or.inl hx

theorem countsZero_empty : CountsZero emptyState := by
  intro k l h
  simp [lookupS, lookupA, emptyState] at h

theorem suggGetD_counts (st : State) (k : List Char) (h : CountsZero st) :
    ∀ x ∈ suggGetD st k, x.count = 0 := by
  rw [suggGetD]
  cases hl : lookupS st k with
  | some l => exact h k l hl
  | none => intro x hx; cases hx

theorem countsZero_setS (st : State) (dct : List (List Char × Nat))
    (k : List Char) (l : List Sugg) (h : CountsZero st)
    (hl : ∀ x ∈ l, x.count = 0) : CountsZero ⟨dct, setA st.suggestions k l⟩ := by
  intro k' l' h'
  replace h' : lookupA (setA st.suggestions k l) k' = some l' := h'
  rw [lookupA_setA] at h'
  split at h'
  · cases h'; exact hl
  · exact h k' l' h'

theorem countsZero_fold (cfg : Config) (entry : List Char) :
    ∀ (ds : List Sugg) (st : State), CountsZero st →
      CountsZero (ds.foldl (fun s d =>
        ⟨s.dictionary, setA s.suggestions d.term
          (keep_lowest_distance cfg.keep_all_suggestions (suggGetD s d.term)
            ⟨entry, 0, d.distance⟩)⟩) st) := by
  intro ds
  induction ds with
  | nil => intro st h; exact h
  | cons d ds ih =>
    intro st h
    refine ih _ (countsZero_setS st _ _ _ h fun x hx => ?_)
    rcases keep_lowest_sub cfg.keep_all_suggestions (suggGetD st d.term)
        ⟨entry, 0, d.distance⟩ x hx with h2 | h2
    · exact suggGetD_counts st d.term h x h2
    · rw [h2]

theorem countsZero_add_entry (cfg : Config) (st : State) (entry : List Char)
    (h : CountsZero st) : CountsZero (add_entry cfg st entry).1 := by
  rw [add_entry]
  cases hd : lookupD st entry with
  | some c => exact h
  | none =>
    refine countsZero_fold cfg entry _ _ ?_
    exact countsZero_setS st _ entry [⟨entry, 0, 0⟩] h (by intro x hx; rw [List.mem_singleton.1 hx])

theorem countsZero_add_corpus (cfg : Config) :
    ∀ (ws : List (List Char)) (p : State × Nat), CountsZero p.1 →
      CountsZero (ws.foldl (fun p w =>
        let r := add_entry cfg p.1 w
        (r.1, p.2 + if r.2 then 1 else 0)) p).1 := by
  intro ws
  induction ws with
  | nil => intro p h; exact h
  | cons w ws ih =>
    intro p h
    exact ih _ (countsZero_add_entry cfg p.1 w h)

theorem countsZero_buildState (cfg : Config) (ws : List (List Char)) :
    CountsZero (buildState cfg ws) :=
  countsZero_add_corpus cfg ws (emptyState, 0) countsZero_empty

/-! ## `add_corpus` is the fold of `add_entry` -/

theorem add_corpus_fst (cfg : Config) :
    ∀ (ws : List (List Char)) (p : State × Nat),
      (ws.foldl (fun p w =>
        let r := add_entry cfg p.1 w
        (r.1, p.2 + if r.2 then 1 else 0)) p).1 = insertAll cfg p.1 ws := by
  intro ws
  induction ws with
  | nil => intro p; rfl
  | cons w ws ih => intro p; exact ih _

theorem buildState_eq (cfg : Config) (ws : List (List Char)) :
    buildState cfg ws = insertAll cfg emptyState ws :=
  add_corpus_fst cfg ws (emptyState, 0)

theorem insertAll_append (cfg : Config) (st : State) (p q : List (List Char)) :
    insertAll cfg st (p ++ q) = insertAll cfg (insertAll cfg st p) q := by
  rw [insertAll, insertAll, insertAll, List.foldl_append]

/-! ## The deletion fold of `add_entry`, key by key -/

theorem fold_deletes_dict (cfg : Config) (entry : List Char) :
    ∀ (ds : List Sugg) (st : State),
      (ds.foldl (fun s d =>
        ⟨s.dictionary, setA s.suggestions d.term
          (keep_lowest_distance cfg.keep_all_suggestions (suggGetD s d.term)
            ⟨entry, 0, d.distance⟩)⟩) st).dictionary = st.dictionary := by
  intro ds
  induction ds with
  | nil => intro st; rfl
  | cons d ds ih => intro st; exact ih _

theorem fold_deletes_untouched (cfg : Config) (entry : List Char) :
    ∀ (ds : List Sugg) (st : State) (v : List Char), v ∉ termsOf ds →
      lookupS (ds.foldl (fun s d =>
        ⟨s.dictionary, setA s.suggestions d.term
          (keep_lowest_distance cfg.keep_all_suggestions (suggGetD s d.term)
            ⟨entry, 0, d.distance⟩)⟩) st) v = lookupS st v := by
  intro ds
  induction ds with
  | nil => intro st v _; rfl
  | cons d ds ih =>
    intro st v hv
    have hv2 : v ∉ termsOf ds := fun h =>
      hv (by rw [termsOf, List.map_cons]; exact List.mem_cons_of_mem d.term h)
    have hvd : ¬ d.term = v := fun he =>
      hv (by rw [termsOf, List.map_cons, he]; exact List.mem_cons_self v _)
    rw [List.foldl_cons, ih _ v hv2]
    show lookupA (setA st.suggestions d.term _) v = _
    rw [lookupA_setA, if_neg hvd]
    rfl

theorem fold_deletes_lookup (cfg : Config) (entry : List Char) :
    ∀ (ds : List Sugg) (st : State) (v : List Char) (d0 : Sugg),
      (termsOf ds).Nodup →
      ds.find? (fun d => decide (d.term = v)) = some d0 →
      lookupS (ds.foldl (fun s d =>
        ⟨s.dictionary, setA s.suggestions d.term
          (keep_lowest_distance cfg.keep_all_suggestions (suggGetD s d.term)
            ⟨entry, 0, d.distance⟩)⟩) st) v =
        some (keep_lowest_distance cfg.keep_all_suggestions (suggGetD st v)
          ⟨entry, 0, d0.distance⟩) := by
  intro ds
  induction ds with
  | nil => intro st v d0 _ hfind; cases hfind
  | cons d ds ih =>
    intro st v d0 hnd hfind
    have hnd2 : (termsOf ds).Nodup ∧ d.term ∉ termsOf ds := by
      rw [termsOf, List.map_cons] at hnd
      exact ⟨hnd.of_cons, (List.nodup_cons.1 hnd).1⟩
    by_cases hdv : d.term = v
    · rw [List.find?_cons_of_pos _ (by simpa using hdv)] at hfind
      cases hfind
      subst hdv
      rw [List.foldl_cons, fold_deletes_untouched cfg entry ds _ d.term hnd2.2]
      show lookupA (setA st.suggestions d.term _) d.term = _
      rw [lookupA_setA, if_pos rfl]
    · rw [List.find?_cons_of_neg _ (by simpa using hdv)] at hfind
      rw [List.foldl_cons, ih _ v d0 hnd2.1 hfind]
      have hsame : suggGetD
          ⟨st.dictionary, setA st.suggestions d.term
            (keep_lowest_distance cfg.keep_all_suggestions (suggGetD st d.term)
              ⟨entry, 0, d.distance⟩)⟩ v = suggGetD st v := by
        rw [suggGetD, suggGetD]
        show (lookupA (setA st.suggestions d.term _) v).getD [] = _
        rw [lookupA_setA, if_neg hdv]
        rfl
      rw [hsame]

/-! ## `add_entry`, key by key -/

theorem nodup_edits (entry : List Char) (maxD : Nat) :
    (termsOf (edits entry maxD)).Nodup := by
  rw [edits]
  exact nodup_editsF entry maxD 1 entry.length

theorem entry_not_in_edits (entry : List Char) (maxD : Nat) :
    entry ∉ termsOf (edits entry maxD) := by
  intro h
  obtain ⟨s, hs, heq⟩ := (mem_termsOf _ _).1 h
  have := (editsF_shape entry.length entry maxD 1 s hs).2.2.1
  rw [heq] at this
  omega

theorem add_entry_dict_lookup (cfg : Config) (st : State) (entry v : List Char) :
    lookupD (add_entry cfg st entry).1 v =
      if entry = v then some ((lookupD st entry).getD 0 + 1) else lookupD st v := by
  cases hd : lookupD st entry with
  | some c =>
    simp only [add_entry, hd]
    show lookupA (setA st.dictionary entry (c + 1)) v = _
    rw [lookupA_setA]
    rfl
  | none =>
    simp only [add_entry, hd]
    have hdict := fold_deletes_dict cfg entry (edits entry cfg.max_distance)
      ⟨setA st.dictionary entry 1, setA st.suggestions entry [⟨entry, 0, 0⟩]⟩
    rw [lookupD_def, hdict, lookupA_setA]
    rfl

theorem wordIn_add_entry (cfg : Config) (st : State) (entry x : List Char) :
    wordIn (add_entry cfg st entry).1 x ↔ x = entry ∨ wordIn st x := by
  rw [wordIn, wordIn, add_entry_dict_lookup]
  by_cases he : entry = x
  · subst he
    simp
  · rw [if_neg he]
    constructor
    · exact Or.inr
    · rintro (rfl | h)
      · exact absurd rfl he
      · exact h

theorem add_entry_sugg_self (cfg : Config) (st : State) (entry : List Char)
    (hnew : lookupD st entry = none) :
    lookupS (add_entry cfg st entry).1 entry = some [⟨entry, 0, 0⟩] := by
  simp only [add_entry, hnew]
  rw [fold_deletes_untouched cfg entry _ _ entry (entry_not_in_edits entry cfg.max_distance)]
  show lookupA (setA st.suggestions entry [⟨entry, 0, 0⟩]) entry = _
  rw [lookupA_setA, if_pos rfl]

theorem add_entry_sugg_hit (cfg : Config) (st : State) (entry v : List Char) (d0 : Sugg)
    (hnew : lookupD st entry = none) (hv : ¬ v = entry)
    (hfind : (edits entry cfg.max_distance).find? (fun d => decide (d.term = v)) = some d0) :
    lookupS (add_entry cfg st entry).1 v =
      some (keep_lowest_distance cfg.keep_all_suggestions (suggGetD st v)
        ⟨entry, 0, d0.distance⟩) := by
  simp only [add_entry, hnew]
  rw [fold_deletes_lookup cfg entry _ _ v d0 (nodup_edits entry cfg.max_distance) hfind]
  have hsame : suggGetD ⟨setA st.dictionary entry 1,
      setA st.suggestions entry [⟨entry, 0, 0⟩]⟩ v = suggGetD st v := by
    rw [suggGetD, suggGetD]
    show (lookupA (setA st.suggestions entry [⟨entry, 0, 0⟩]) v).getD [] = _
    rw [lookupA_setA, if_neg (fun he => hv he.symm)]
    rfl
  rw [hsame]

theorem add_entry_sugg_miss (cfg : Config) (st : State) (entry v : List Char)
    (hnew : lookupD st entry = none) (hv : ¬ v = entry)
    (hfind : (edits entry cfg.max_distance).find? (fun d => decide (d.term = v)) = none) :
    lookupS (add_entry cfg st entry).1 v = lookupS st v := by
  have hnotin : v ∉ termsOf (edits entry cfg.max_distance) := by
    intro h
    obtain ⟨s, hs, heq⟩ := (mem_termsOf _ _).1 h
    have := List.find?_eq_none.1 hfind s hs
    simp [heq] at this
  simp only [add_entry, hnew]
  rw [fold_deletes_untouched cfg entry _ _ v hnotin]
  show lookupA (setA st.suggestions entry [⟨entry, 0, 0⟩]) v = _
  rw [lookupA_setA, if_neg (fun he => hv he.symm)]
  rfl

theorem add_entry_sugg_old (cfg : Config) (st : State) (entry : List Char) (c : Nat)
    (hold : lookupD st entry = some c) :
    (add_entry cfg st entry).1.suggestions = st.suggestions := by
  simp only [add_entry, hold]

/-! ## `keep_lowest_distance`, case by case -/

theorem keep_lowest_nil (ka : Bool) (s : Sugg) :
    keep_lowest_distance ka [] s = [s] := by
  simp only [keep_lowest_distance]
  have h1 : ¬(¬ka = true ∧ ([] : List Sugg) ≠ [] ∧
      s.distance < (([] : List Sugg).headD s).distance) := fun hc => hc.2.1 rfl
  rw [if_neg h1, if_pos (Or.inr (Or.inl rfl))]
  rfl

theorem keep_lowest_keepAll (l : List Sugg) (s : Sugg) :
    keep_lowest_distance true l s = l ++ [s] := by
  simp only [keep_lowest_distance]
  have h1 : ¬(¬True ∧ l ≠ [] ∧
      s.distance < (l.headD s).distance) := fun hc => hc.1 trivial
  rw [if_neg h1, if_pos (Or.inl trivial)]

theorem keep_lowest_false_lt (s0 : Sugg) (rest : List Sugg) (s : Sugg)
    (h : s.distance < s0.distance) :
    keep_lowest_distance false (s0 :: rest) s = [s] := by
  simp only [keep_lowest_distance]
  have h1 : ¬(false : Bool) = true ∧ s0 :: rest ≠ [] ∧
      s.distance < ((s0 :: rest).headD s).distance :=
    ⟨by decide, List.cons_ne_nil s0 rest, by rw [List.headD_cons]; exact h⟩
  rw [if_pos h1, if_pos (Or.inr (Or.inl rfl))]
  rfl

theorem keep_lowest_false_eq (s0 : Sugg) (rest : List Sugg) (s : Sugg)
    (h : s0.distance = s.distance) :
    keep_lowest_distance false (s0 :: rest) s = s0 :: (rest ++ [s]) := by
  simp only [keep_lowest_distance]
  have h1 : ¬(¬(false : Bool) = true ∧ s0 :: rest ≠ [] ∧
      s.distance < ((s0 :: rest).headD s).distance) := by
    rintro ⟨-, -, hlt⟩
    rw [List.headD_cons, h] at hlt
    exact lt_irrefl _ hlt
  have h2 : s.distance ≤ ((s0 :: rest).headD s).distance := by
    rw [List.headD_cons]
    exact h.ge
  rw [if_neg h1, if_pos (Or.inr (Or.inr h2))]
  rfl

theorem keep_lowest_false_gt (s0 : Sugg) (rest : List Sugg) (s : Sugg)
    (h : s0.distance < s.distance) :
    keep_lowest_distance false (s0 :: rest) s = s0 :: rest := by
  simp only [keep_lowest_distance]
  have h1 : ¬(¬(false : Bool) = true ∧ s0 :: rest ≠ [] ∧
      s.distance < ((s0 :: rest).headD s).distance) := by
    rintro ⟨-, -, hlt⟩
    rw [List.headD_cons] at hlt
    exact absurd h (not_lt.2 hlt.le)
  have h2 : ¬((false : Bool) = true ∨ s0 :: rest = ([] : List Sugg) ∨
      s.distance ≤ ((s0 :: rest).headD s).distance) := by
    rintro (hka | hnil | hle)
    · cases hka
    · cases hnil
    · rw [List.headD_cons] at hle
      exact absurd h (not_lt.2 hle)
  rw [if_neg h1, if_neg h2]

/-! ## Producer facts: `find?` over the deletion list vs. `prodDist` -/

theorem lookupS_def (st : State) (v : List Char) :
    lookupS st v = lookupA st.suggestions v := rfl

theorem edits_find_some_facts (maxD : Nat) (hk : 1 ≤ maxD) (entry v : List Char)
    (d0 : Sugg)
    (hfind : (edits entry maxD).find? (fun d => decide (d.term = v)) = some d0) :
    d0.term = v ∧ v ≠ [] ∧ ProducesWithin maxD entry v ∧
      d0.distance = ((entry.length - v.length : Nat) : ℚ) := by
  have hmem : d0 ∈ editsF entry.length entry maxD 1 := by
    have := List.mem_of_find?_eq_some hfind
    rw [edits] at this
    exact this
  have hp := List.find?_some hfind
  have hterm : d0.term = v := by simpa using hp
  obtain ⟨hsub, hne, hlt, _⟩ := editsF_shape entry.length entry maxD 1 d0 hmem
  obtain ⟨hdist, hbound⟩ := editsF_dist entry.length entry maxD 1 hk d0 hmem
  rw [hterm] at hsub hne hlt hdist hbound
  refine ⟨hterm, hne, ⟨hsub, hlt, by omega⟩, ?_⟩
  rw [hdist]
  congr 1
  omega

theorem find_some_of_produces (maxD : Nat) (hk : 1 ≤ maxD) (entry v : List Char)
    (hprod : v ≠ [] ∧ ProducesWithin maxD entry v) :
    ∃ d0, (edits entry maxD).find? (fun d => decide (d.term = v)) = some d0 := by
  obtain ⟨hne, hsub, hlt, hbound⟩ := hprod
  have hv : v ∈ termsOf (edits entry maxD) := by
    rw [edits]
    exact editsF_complete entry.length entry maxD 1 v le_rfl hk hsub hne hlt (by omega)
  obtain ⟨s, hs, rfl⟩ := (mem_termsOf _ _).1 hv
  have : ((edits entry maxD).find? fun d => decide (d.term = s.term)).isSome = true :=
    List.find?_isSome.2 ⟨s, hs, by simp⟩
  exact Option.isSome_iff_exists.1 this

theorem edits_find_none_prodDist (maxD : Nat) (hk : 1 ≤ maxD) (entry v : List Char)
    (hv : ¬ v = entry)
    (hfind : (edits entry maxD).find? (fun d => decide (d.term = v)) = none) :
    prodDist maxD entry v = none := by
  rw [prodDist, if_neg hv, if_neg]
  intro hprod
  obtain ⟨d0, hd0⟩ := find_some_of_produces maxD hk entry v hprod
  rw [hfind] at hd0
  cases hd0

theorem prodDist_self (maxD : Nat) (v : List Char) : prodDist maxD v v = some 0 := by
  rw [prodDist, if_pos rfl]

theorem prodDist_of_produces (maxD : Nat) (entry v : List Char) (hv : ¬ v = entry)
    (hprod : v ≠ [] ∧ ProducesWithin maxD entry v) :
    prodDist maxD entry v = some ((entry.length - v.length : Nat) : ℚ) := by
  rw [prodDist, if_neg hv, if_pos hprod]

theorem prodDist_zero_only (maxD : Nat) (w v : List Char)
    (h : prodDist maxD w v = some 0) : v = w := by
  by_cases he : v = w
  · exact he
  · exfalso
    rw [prodDist, if_neg he] at h
    split at h
    · next hc =>
      injection h with h2
      have hz : w.length - v.length = 0 := Nat.cast_eq_zero.1 h2
      have := hc.2.2.1
      omega
    · cases h

theorem prodDist_nonneg (maxD : Nat) (w v : List Char) (d : ℚ)
    (h : prodDist maxD w v = some d) : 0 ≤ d := by
  rw [prodDist] at h
  split at h
  · injection h with h2
    rw [← h2]
  · split at h
    · injection h with h2
      rw [← h2]
      exact Nat.cast_nonneg _
    · cases h

/-! ## Dictionary membership through repeated insertion -/

theorem not_wordIn_empty (x : List Char) : ¬ wordIn emptyState x := by
  intro h
  rw [wordIn] at h
  cases h

theorem wordIn_insertAll_mono (cfg : Config) :
    ∀ (ws : List (List Char)) (st : State) (x : List Char),
      wordIn st x → wordIn (insertAll cfg st ws) x := by
  intro ws
  induction ws with
  | nil => exact fun st x h => h
  | cons u ws ih =>
    intro st x h
    exact ih _ x ((wordIn_add_entry cfg st u x).2 (Or.inr h))

theorem wordIn_insertAll_of_mem (cfg : Config) :
    ∀ (ws : List (List Char)) (st : State) (x : List Char),
      x ∈ ws → wordIn (insertAll cfg st ws) x := by
  intro ws
  induction ws with
  | nil => intro st x h; cases h
  | cons u ws ih =>
    intro st x h
    rcases List.mem_cons.1 h with rfl | h2
    · exact wordIn_insertAll_mono cfg ws _ x
        ((wordIn_add_entry cfg st x x).2 (Or.inl rfl))
    · exact ih _ x h2

theorem wordIn_insertAll_cases (cfg : Config) :
    ∀ (ws : List (List Char)) (st : State) (x : List Char),
      wordIn (insertAll cfg st ws) x → x ∈ ws ∨ wordIn st x := by
  intro ws
  induction ws with
  | nil => exact fun st x h => Or.inr h
  | cons u ws ih =>
    intro st x h
    rcases ih _ x h with h2 | h2
    · exact Or.inl (List.mem_cons_of_mem u h2)
    · rcases (wordIn_add_entry cfg st u x).1 h2 with rfl | h3
      · exact Or.inl (List.mem_cons_self x ws)
      · exact Or.inr h3

/-! ## Keep-all retention through insertions -/

theorem keepAll_persist (cfg : Config) (hka : cfg.keep_all_suggestions = true) :
    ∀ (ws : List (List Char)) (st : State) (w v : List Char),
      w ∈ termsOf (suggGetD st v) → (v ∉ ws ∨ wordIn st v) →
      w ∈ termsOf (suggGetD (insertAll cfg st ws) v) := by
  intro ws
  induction ws with
  | nil => exact fun st w v h _ => h
  | cons u ws ih =>
    intro st w v hmem hcond
    show w ∈ termsOf (suggGetD (insertAll cfg (add_entry cfg st u).1 ws) v)
    refine ih _ w v ?_ ?_
    · cases hd : lookupD st u with
      | some c =>
        have hsame : suggGetD (add_entry cfg st u).1 v = suggGetD st v := by
          rw [suggGetD, suggGetD, lookupS_def, lookupS_def, add_entry_sugg_old cfg st u c hd]
        rw [hsame]
        exact hmem
      | none =>
        by_cases hveq : v = u
        · exfalso
          rcases hcond with hnot | hin
          · exact hnot (hveq ▸ List.mem_cons_self u ws)
          · rw [hveq, wordIn, hd] at hin
            cases hin
        · cases hfind : (edits u cfg.max_distance).find? (fun d => decide (d.term = v)) with
          | some d0 =>
            rw [suggGetD, add_entry_sugg_hit cfg st u v d0 hd hveq hfind, Option.getD_some,
              hka, keep_lowest_keepAll, termsOf_append]
            exact List.mem_append.2 (Or.inl hmem)
          | none =>
            rw [suggGetD, add_entry_sugg_miss cfg st u v hd hveq hfind]
            exact hmem
    · rcases hcond with hnot | hin
      · exact Or.inl fun h2 => hnot (List.mem_cons_of_mem u h2)
      · exact Or.inr ((wordIn_add_entry cfg st u v).2 (Or.inr hin))

theorem keepAll_create (cfg : Config) (hka : cfg.keep_all_suggestions = true)
    (hk : 1 ≤ cfg.max_distance) (st : State) (u v : List Char)
    (hnew : lookupD st u = none)
    (hprod : v ≠ [] ∧ ProducesWithin cfg.max_distance u v) :
    u ∈ termsOf (suggGetD (add_entry cfg st u).1 v) := by
  have hvne : ¬ v = u := fun he => absurd (he ▸ hprod.2.2.1) (lt_irrefl _)
  obtain ⟨d0, hfind⟩ := find_some_of_produces cfg.max_distance hk u v hprod
  rw [suggGetD, add_entry_sugg_hit cfg st u v d0 hnew hvne hfind, Option.getD_some,
    hka, keep_lowest_keepAll, termsOf_append]
  refine List.mem_append.2 (Or.inr ?_)
  rw [termsOf]
  exact List.mem_singleton.2 rfl

/-! ## The minimal-distance retention invariant (keep-all disabled) -/

theorem minOnly_empty (maxD : Nat) : MinOnly maxD emptyState := by
  intro v
  constructor
  · intro _ w hw
    exact absurd hw (not_wordIn_empty w)
  · intro l hl
    rw [lookupS_def] at hl
    simp [emptyState, lookupA] at hl

theorem minOnly_add_old (cfg : Config) (st : State) (entry : List Char) (c : Nat)
    (hold : lookupD st entry = some c) (h : MinOnly cfg.max_distance st) :
    MinOnly cfg.max_distance (add_entry cfg st entry).1 := by
  intro v
  have hsugg : ∀ k, lookupS (add_entry cfg st entry).1 k = lookupS st k := by
    intro k
    rw [lookupS_def, lookupS_def, add_entry_sugg_old cfg st entry c hold]
  have hword : ∀ x, wordIn (add_entry cfg st entry).1 x ↔ wordIn st x := by
    intro x
    rw [wordIn_add_entry]
    constructor
    · rintro (rfl | h2)
      · rw [wordIn, hold]
        rfl
      · exact h2
    · exact Or.inr
  obtain ⟨hnone, hsome⟩ := h v
  constructor
  · intro hn w hw
    exact hnone (by rw [← hsugg v]; exact hn) w ((hword w).1 hw)
  · intro l hl
    obtain ⟨dmin, h1, h2, h3, h4⟩ := hsome l (by rw [← hsugg v]; exact hl)
    exact ⟨dmin, h1, h2,
      fun w => by rw [h3 w, hword w],
      fun w d hw hd => h4 w d ((hword w).1 hw) hd⟩

theorem minOnly_add_new (cfg : Config) (hka : cfg.keep_all_suggestions = false)
    (hk : 1 ≤ cfg.max_distance) (st : State) (entry : List Char)
    (hnew : lookupD st entry = none) (h : MinOnly cfg.max_distance st) :
    MinOnly cfg.max_distance (add_entry cfg st entry).1 := by
  intro v
  have hword := wordIn_add_entry cfg st entry
  by_cases hv : v = entry
  · subst hv
    constructor
    · intro hn
      rw [add_entry_sugg_self cfg st v hnew] at hn
      cases hn
    · intro l hl
      rw [add_entry_sugg_self cfg st v hnew] at hl
      injection hl with hleq
      subst hleq
      refine ⟨0, List.cons_ne_nil _ _, ?_, ?_, ?_⟩
      · intro s hs
        rcases List.mem_singleton.1 hs with rfl
        exact ⟨rfl, rfl⟩
      · intro w
        constructor
        · intro hw
          have hweq : w = v := by simpa [termsOf] using hw
          subst hweq
          exact ⟨(hword w).2 (Or.inl rfl), prodDist_self _ w⟩
        · rintro ⟨_, hpd⟩
          have hweq : v = w := prodDist_zero_only _ w v hpd
          subst hweq
          simp [termsOf]
      · intro w d _ hpd
        exact prodDist_nonneg _ w v d hpd
  · cases hfind : (edits entry cfg.max_distance).find? (fun d => decide (d.term = v)) with
    | none =>
      have hpdnone : prodDist cfg.max_distance entry v = none :=
        edits_find_none_prodDist _ hk entry v hv hfind
      have hsame : lookupS (add_entry cfg st entry).1 v = lookupS st v :=
        add_entry_sugg_miss cfg st entry v hnew hv hfind
      obtain ⟨hnone, hsome⟩ := h v
      constructor
      · intro hn w hw
        rcases (hword w).1 hw with rfl | hw2
        · exact hpdnone
        · exact hnone (hsame ▸ hn) w hw2
      · intro l hl
        obtain ⟨dmin, h1, h2, h3, h4⟩ := hsome l (hsame ▸ hl)
        refine ⟨dmin, h1, h2, fun w => ?_, fun w d hw hd => ?_⟩
        · rw [h3 w]
          constructor
          · rintro ⟨hw2, hpd⟩
            exact ⟨(hword w).2 (Or.inr hw2), hpd⟩
          · rintro ⟨hw2, hpd⟩
            rcases (hword w).1 hw2 with rfl | hw3
            · rw [hpdnone] at hpd
              cases hpd
            · exact ⟨hw3, hpd⟩
        · rcases (hword w).1 hw with rfl | hw2
          · rw [hpdnone] at hd
            cases hd
          · exact h4 w d hw2 hd
    | some d0 =>
      obtain ⟨hterm, hne, hprodw, hdisteq⟩ :=
        edits_find_some_facts _ hk entry v d0 hfind
      have hpdentry : prodDist cfg.max_distance entry v = some d0.distance := by
        rw [prodDist_of_produces _ entry v hv ⟨hne, hprodw⟩, hdisteq]
      have hsugg := add_entry_sugg_hit cfg st entry v d0 hnew hv hfind
      rw [hka] at hsugg
      obtain ⟨hnone, hsome⟩ := h v
      cases hold : lookupS st v with
      | none =>
        have hgd : suggGetD st v = [] := by rw [suggGetD, hold]; rfl
        rw [hgd, keep_lowest_nil] at hsugg
        constructor
        · intro hn
          rw [hn] at hsugg
          cases hsugg
        · intro l hl
          rw [hl] at hsugg
          injection hsugg with hleq
          subst hleq
          refine ⟨d0.distance, List.cons_ne_nil _ _, ?_, ?_, ?_⟩
          · intro s hs
            rcases List.mem_singleton.1 hs with rfl
            exact ⟨rfl, rfl⟩
          · intro w
            constructor
            · intro hw
              have hweq : w = entry := by simpa [termsOf] using hw
              subst hweq
              exact ⟨(hword w).2 (Or.inl rfl), hpdentry⟩
            · rintro ⟨hw2, hpd⟩
              rcases (hword w).1 hw2 with rfl | hw3
              · simp [termsOf]
              · have := hnone hold w hw3
                rw [this] at hpd
                cases hpd
          · intro w d hw hd
            rcases (hword w).1 hw with rfl | hw3
            · rw [hpdentry] at hd
              injection hd with hde
              rw [hde]
            · have := hnone hold w hw3
              rw [this] at hd
              cases hd
      | some l0 =>
        obtain ⟨dmin0, hne0, hdist0, hiff0, hmin0⟩ := hsome l0 hold
        have hgd : suggGetD st v = l0 := by rw [suggGetD, hold]; rfl
        match l0, hne0 with
        | s0 :: rest, _ =>
        have hs0 : s0.distance = dmin0 := (hdist0 s0 (List.mem_cons_self s0 rest)).1
        rcases lt_trichotomy d0.distance dmin0 with hcmp | hcmp | hcmp
        · -- strictly smaller recorded distance: the new word replaces the list
          rw [hgd, keep_lowest_false_lt s0 rest _ (by
            show Sugg.distance ⟨entry, 0, d0.distance⟩ < s0.distance
            rw [hs0]
            exact hcmp)] at hsugg
          constructor
          · intro hn
            rw [hn] at hsugg
            cases hsugg
          · intro l hl
            rw [hl] at hsugg
            injection hsugg with hleq
            subst hleq
            refine ⟨d0.distance, List.cons_ne_nil _ _, ?_, ?_, ?_⟩
            · intro s hs
              rcases List.mem_singleton.1 hs with rfl
              exact ⟨rfl, rfl⟩
            · intro w
              constructor
              · intro hw
                have hweq : w = entry := by simpa [termsOf] using hw
                subst hweq
                exact ⟨(hword w).2 (Or.inl rfl), hpdentry⟩
              · rintro ⟨hw2, hpd⟩
                rcases (hword w).1 hw2 with rfl | hw3
                · simp [termsOf]
                · exfalso
                  have := hmin0 w d0.distance hw3 hpd
                  exact absurd hcmp (not_lt.2 this)
            · intro w d hw hd
              rcases (hword w).1 hw with rfl | hw3
              · rw [hpdentry] at hd
                injection hd with hde
                rw [hde]
              · exact (hcmp.le).trans (hmin0 w d hw3 hd)
        · -- equal recorded distance: the new word is appended
          rw [hgd, keep_lowest_false_eq s0 rest _ (by
            show s0.distance = Sugg.distance ⟨entry, 0, d0.distance⟩
            rw [hs0, hcmp])] at hsugg
          constructor
          · intro hn
            rw [hn] at hsugg
            cases hsugg
          · intro l hl
            rw [hl] at hsugg
            injection hsugg with hleq
            subst hleq
            refine ⟨dmin0, List.cons_ne_nil _ _, ?_, ?_, ?_⟩
            · intro s hs
              rcases List.mem_cons.1 hs with rfl | hs2
              · exact hdist0 s (List.mem_cons_self s rest)
              · rcases List.mem_append.1 hs2 with hs3 | hs3
                · exact hdist0 s (List.mem_cons_of_mem s0 hs3)
                · rcases List.mem_singleton.1 hs3 with rfl
                  exact ⟨hcmp, rfl⟩
            · intro w
              have hsplit : w ∈ termsOf (s0 :: (rest ++ [⟨entry, 0, d0.distance⟩])) ↔
                  w ∈ termsOf (s0 :: rest) ∨ w = entry := by
                simp [termsOf]
                constructor
                · rintro (h1 | h1 | h1)
                  · exact Or.inl (Or.inl h1)
                  · exact Or.inl (Or.inr h1)
                  · exact Or.inr h1
                · rintro ((h1 | h1) | h1)
                  · exact Or.inl h1
                  · exact Or.inr (Or.inl h1)
                  · exact Or.inr (Or.inr h1)
              rw [hsplit]
              constructor
              · rintro (hw | rfl)
                · obtain ⟨hw2, hpd⟩ := (hiff0 w).1 hw
                  exact ⟨(hword w).2 (Or.inr hw2), hpd⟩
                · exact ⟨(hword w).2 (Or.inl rfl), by rw [hpdentry, hcmp]⟩
              · rintro ⟨hw2, hpd⟩
                rcases (hword w).1 hw2 with rfl | hw3
                · exact Or.inr rfl
                · exact Or.inl ((hiff0 w).2 ⟨hw3, hpd⟩)
            · intro w d hw hd
              rcases (hword w).1 hw with rfl | hw3
              · rw [hpdentry] at hd
                injection hd with hde
                rw [← hde, hcmp]
              · exact hmin0 w d hw3 hd
        · -- larger recorded distance: the list is unchanged
          rw [hgd, keep_lowest_false_gt s0 rest _ (by
            show s0.distance < Sugg.distance ⟨entry, 0, d0.distance⟩
            rw [hs0]
            exact hcmp)] at hsugg
          constructor
          · intro hn
            rw [hn] at hsugg
            cases hsugg
          · intro l hl
            rw [hl] at hsugg
            injection hsugg with hleq
            subst hleq
            refine ⟨dmin0, List.cons_ne_nil _ _, hdist0, ?_, ?_⟩
            · intro w
              rw [hiff0 w]
              constructor
              · rintro ⟨hw2, hpd⟩
                exact ⟨(hword w).2 (Or.inr hw2), hpd⟩
              · rintro ⟨hw2, hpd⟩
                rcases (hword w).1 hw2 with rfl | hw3
                · exfalso
                  rw [hpdentry] at hpd
                  injection hpd with hde
                  rw [hde] at hcmp
                  exact lt_irrefl _ hcmp
                · exact ⟨hw3, hpd⟩
            · intro w d hw hd
              rcases (hword w).1 hw with rfl | hw3
              · rw [hpdentry] at hd
                injection hd with hde
                rw [← hde]
                exact hcmp.le
              · exact hmin0 w d hw3 hd

theorem minOnly_insertAll (cfg : Config) (hka : cfg.keep_all_suggestions = false)
    (hk : 1 ≤ cfg.max_distance) :
    ∀ (ws : List (List Char)) (st : State), MinOnly cfg.max_distance st →
      MinOnly cfg.max_distance (insertAll cfg st ws) := by
  intro ws
  induction ws with
  | nil => exact fun st h => h
  | cons u ws ih =>
    intro st h
    refine ih _ ?_
    cases hd : lookupD st u with
    | some c => exact minOnly_add_old cfg st u c hd h
    | none => exact minOnly_add_new cfg hka hk st u hd h

/-! ## Claim C9 -/

/-- C9: the base metric's documented values hold exactly:
`edit_distance("hello","HELLO") = 0`, `("hello","ell") = 2`,
`("penguin","pencil") = 3`, `("hallo","hell") = 2`, `("ÁREA","área") = 0`,
`("ÁREA","area") = 1/10` exactly, and `"woooooooooo"` behaves like
`"woo"` against every second argument. -/
theorem c9_theorem :
    edit_distance ['h','e','l','l','o'] ['H','E','L','L','O'] = 0 ∧
    edit_distance ['h','e','l','l','o'] ['e','l','l'] = 2 ∧
    edit_distance ['p','e','n','g','u','i','n'] ['p','e','n','c','i','l'] = 3 ∧
    edit_distance ['h','a','l','l','o'] ['h','e','l','l'] = 2 ∧
    edit_distance ['Á','R','E','A'] ['á','r','e','a'] = 0 ∧
    edit_distance ['Á','R','E','A'] ['a','r','e','a'] = 1 / 10 ∧
    ∀ t : List Char,
      edit_distance ['w','o','o','o','o','o','o','o','o','o','o'] t =
        edit_distance ['w','o','o'] t := by
  refine ⟨by decide, by decide, by decide, by decide, by decide, ?_, ?_⟩
  · have h : edit_distance ['Á','R','E','A'] ['a','r','e','a'] = q01 := by decide
    rw [h, q01_eq]
  · intro t
    have h : squash (List.map pyLower ['w','o','o','o','o','o','o','o','o','o','o']) =
        squash (List.map pyLower ['w','o','o']) := by decide
    simp only [edit_distance, h]

/-! ## Claim C7 -/

/-- C7: end-to-end on the corpus `["hello", "hell"]` with `max_distance=2`:
with keep-all enabled `suggest("hel")` returns exactly `hell` then `hello`
(at ascending distances 1 and 2); with keep-all disabled `suggest("hel")`
returns `[hell]`, `suggest("help")` returns `[hell]`, `suggest("hallo")`
returns `[hello]`, and `correct("hel")` returns `hell`. -/
theorem c7_theorem :
    suggestTerms ⟨2, true⟩
        (buildState ⟨2, true⟩ [['h','e','l','l','o'], ['h','e','l','l']])
        ['h','e','l'] = some [['h','e','l','l'], ['h','e','l','l','o']] ∧
    (suggest ⟨2, true⟩ edit_distance
        (buildState ⟨2, true⟩ [['h','e','l','l','o'], ['h','e','l','l']])
        ['h','e','l']).map (fun p => p.1.map Sugg.distance) = some [1, 2] ∧
    suggestTerms ⟨2, false⟩
        (buildState ⟨2, false⟩ [['h','e','l','l','o'], ['h','e','l','l']])
        ['h','e','l'] = some [['h','e','l','l']] ∧
    suggestTerms ⟨2, false⟩
        (buildState ⟨2, false⟩ [['h','e','l','l','o'], ['h','e','l','l']])
        ['h','e','l','p'] = some [['h','e','l','l']] ∧
    suggestTerms ⟨2, false⟩
        (buildState ⟨2, false⟩ [['h','e','l','l','o'], ['h','e','l','l']])
        ['h','a','l','l','o'] = some [['h','e','l','l','o']] ∧
    correctTerm ⟨2, false⟩
        (buildState ⟨2, false⟩ [['h','e','l','l','o'], ['h','e','l','l']])
        ['h','e','l'] = some (some ['h','e','l','l']) :=
  ⟨by decide, by decide, by decide, by decide, by decide, by decide⟩

/-! ## Claim C1 -/

/-- C1 counterexample: with the corpus `["abef"]` and `max_distance = 2`,
`suggest("xyab")` returns `abef`, although the true distance between the
query `"xyab"` and the suggestion's word `"abef"` is 4 > 2.  The engine in
fact measures the distance between the popped candidate variant (here
`"ab"`) and the query, so the claimed acceptance test
`edit_distance(query, s.word) ≤ max_distance` does not govern
acceptance. -/
theorem c1_counterexample :
    suggestTerms ⟨2, false⟩ (buildState ⟨2, false⟩ [['a','b','e','f']])
        ['x','y','a','b'] = some [['a','b','e','f']] ∧
    edit_distance ['x','y','a','b'] ['a','b','e','f'] = 4 :=
  ⟨by decide, by decide⟩

/-- C1 (amended): during `suggest(query)`, for a popped candidate `c` and a
stored suggestion `s` under `c`, the engine computes the distance as
`edit_distance(c, query)` — between the popped candidate term and the
original query, not the suggestion's source word — whenever `s.word`
differs from `c`, and uses the stored deletion count only when `s.word`
equals `c`; a suggestion whose computed value exceeds `max_distance` is
rejected, and one within `max_distance` is admitted to the result set (in
keep-all mode unconditionally). -/
theorem c1_theorem (cfg : Config) (metric : List Char → List Char → ℚ)
    (word : List Char) (cand s : Sugg) (acc : List Sugg) :
    (s.term ≠ cand.term → usedDistance metric word cand s = metric cand.term word) ∧
    (s.term = cand.term → usedDistance metric word cand s = s.distance) ∧
    (¬ usedDistance metric word cand s ≤ (cfg.max_distance : ℚ) →
      stepSugg cfg metric word cand acc s = acc) ∧
    (usedDistance metric word cand s ≤ (cfg.max_distance : ℚ) →
      cfg.keep_all_suggestions = true →
      s.term ∈ termsOf (stepSugg cfg metric word cand acc s)) := by
  have haddset : s.term ∈ termsOf (addSet acc s) :=
    (mem_termsOf_addSet acc s s.term).2 (Or.inr rfl)
  refine ⟨fun h => by rw [usedDistance, if_neg h], fun h => by rw [usedDistance, if_pos h],
    fun h => by simp only [stepSugg]; rw [if_neg h], fun h hka => ?_⟩
  simp only [stepSugg]
  rw [if_pos h, hka]
  cases acc with
  | nil => exact haddset
  | cons a as => exact haddset

/-- Witness for `c1_theorem` at concrete inputs: candidate term `"he"`,
query `"hel"`, stored suggestion for `"hell"`. -/
theorem c1_witness :
    usedDistance edit_distance ['h','e','l'] ⟨['h','e'], 0, 1⟩ ⟨['h','e','l','l'], 0, 2⟩ =
      edit_distance ['h','e'] ['h','e','l'] ∧
    ['h','e','l','l'] ∈ termsOf (stepSugg ⟨2, true⟩ edit_distance ['h','e','l']
      ⟨['h','e'], 0, 1⟩ [] ⟨['h','e','l','l'], 0, 2⟩) :=
  ⟨(c1_theorem ⟨2, true⟩ edit_distance ['h','e','l'] ⟨['h','e'], 0, 1⟩
      ⟨['h','e','l','l'], 0, 2⟩ []).1 (by decide),
   (c1_theorem ⟨2, true⟩ edit_distance ['h','e','l'] ⟨['h','e'], 0, 1⟩
      ⟨['h','e','l','l'], 0, 2⟩ []).2.2.2 (by decide) rfl⟩

/-! ## Claim C2 : counterexample -/

/-- C2 counterexample: corpus `["ab", "abcde"]`, keep-all enabled,
`max_distance = 2`, query `"abcd"`.  The engine returns `ab` before
`abcde`, yet the true edit distances to the query are 2 and 1: the result
is not sorted by the metric distance between the query and the word (it is
sorted by the stored structural deletion counts). -/
theorem c2_counterexample :
    suggestTerms ⟨2, true⟩
        (buildState ⟨2, true⟩ [['a','b'], ['a','b','c','d','e']])
        ['a','b','c','d'] = some [['a','b'], ['a','b','c','d','e']] ∧
    edit_distance ['a','b','c','d'] ['a','b'] = 2 ∧
    edit_distance ['a','b','c','d'] ['a','b','c','d','e'] = 1 :=
  ⟨by decide, by decide, by decide⟩

/-! ## Claim C3 : counterexample -/

/-- C3 counterexample: keep-all enabled, `max_distance = 2`, insertions
`["hell", "hel"]`.  `"hell"` produces the variant `"hel"` by one deletion,
yet after both insertions the suggestion list of `"hel"` holds only the
self-mapping: inserting `"hel"` as a dictionary word reset its key,
dropping the producer `"hell"`. -/
theorem c3_counterexample :
    DeletesTo ['h','e','l','l'] ['h','e','l'] 1 ∧ (1 : Nat) ≤ 2 ∧
    lookupS (buildState ⟨2, true⟩ [['h','e','l','l'], ['h','e','l']])
      ['h','e','l'] = some [⟨['h','e','l'], 0, 0⟩] :=
  ⟨by decide, by decide, by decide⟩

/-- C3 (amended): with keep-all enabled, after any sequence of insertions
every dictionary word `w` producing a nonempty variant `v` within
`max_distance` deletions is present in `v`'s suggestion list, *provided*
`v` itself is not first inserted as a new dictionary word after `w`'s first
insertion: when a word is first inserted, the list under its own key is
reset to the self-mapping alone, discarding the producers recorded for that
exact key (and the generator never indexes the empty variant).  Formally:
if the corpus splits as `p ++ w :: q` with `w ∉ p` and `v` either absent
from `q` or already inserted in `p`, then `w` is in `v`'s list. -/
theorem c3_theorem (maxD : Nat) (hk : 1 ≤ maxD) (p q : List (List Char))
    (w v : List Char) (hw : w ∉ p) (hv : v ∉ q ∨ v ∈ p)
    (hprod : v ≠ [] ∧ ProducesWithin maxD w v) :
    w ∈ termsOf (suggGetD (buildState ⟨maxD, true⟩ (p ++ w :: q)) v) := by
  rw [buildState_eq, insertAll_append]
  have hnew : lookupD (insertAll ⟨maxD, true⟩ emptyState p) w = none := by
    cases hlk : lookupD (insertAll ⟨maxD, true⟩ emptyState p) w with
    | none => rfl
    | some c =>
      exfalso
      have hin : wordIn (insertAll ⟨maxD, true⟩ emptyState p) w := by
        rw [wordIn, hlk]
        rfl
      rcases wordIn_insertAll_cases ⟨maxD, true⟩ p emptyState w hin with h2 | h2
      · exact hw h2
      · exact not_wordIn_empty w h2
  show w ∈ termsOf (suggGetD (insertAll ⟨maxD, true⟩
    (add_entry ⟨maxD, true⟩ (insertAll ⟨maxD, true⟩ emptyState p) w).1 q) v)
  refine keepAll_persist ⟨maxD, true⟩ rfl q _ w v ?_ ?_
  · exact keepAll_create ⟨maxD, true⟩ rfl hk _ w v hnew hprod
  · rcases hv with h | h
    · exact Or.inl h
    · exact Or.inr ((wordIn_add_entry ⟨maxD, true⟩ _ w v).2
        (Or.inr (wordIn_insertAll_of_mem ⟨maxD, true⟩ p emptyState v h)))

/-- Witness for `c3_theorem`: corpus `["hel", "hell"]` — the later word
`"hell"` is recorded as a producer of the earlier-inserted `"hel"`. -/
theorem c3_witness :
    ['h','e','l','l'] ∈ termsOf (suggGetD
      (buildState ⟨2, true⟩ ([['h','e','l']] ++ ['h','e','l','l'] :: []))
      ['h','e','l']) :=
  c3_theorem 2 (by decide) [['h','e','l']] [] ['h','e','l','l'] ['h','e','l']
    (by decide) (Or.inr (by decide)) ⟨by decide, by decide⟩

/-! ## Claim C4 : counterexample -/

/-- C4 counterexample: keep-all disabled, `max_distance = 2`, insertions
`["ab"]`.  The dictionary word `"ab"` produces the variant `""` by exactly
2 ≤ `max_distance` deletions (the only, hence globally minimal, recorded
distance would be 2), yet the suggestion list of `""` is empty: the
deletion generator never emits the empty string, so the claimed "exactly
the producers at minimal distance" fails for this variant. -/
theorem c4_counterexample :
    DeletesTo ['a','b'] [] 2 ∧ (1 : Nat) ≤ 2 ∧
    lookupD (buildState ⟨2, false⟩ [['a','b']]) ['a','b'] = some 1 ∧
    suggGetD (buildState ⟨2, false⟩ [['a','b']]) [] = [] :=
  ⟨by decide, by decide, by decide, by decide⟩

/-- C4 (amended): with keep-all disabled, after every sequence of
insertions every *indexed* variant's suggestion list consists exactly of
the dictionary words recorded for it at the globally minimal recorded
deletion distance (0 for the variant's own self-mapping), all entries
sharing that one distance; a key with no list has no producer at all among
the dictionary words (within `max_distance`, empty variant excluded, since
the generator never emits the empty string).  An insertion recording a
strictly smaller distance replaces the list, an equal distance appends,
and a larger distance leaves it unchanged. -/
theorem c4_theorem (maxD : Nat) (hk : 1 ≤ maxD) (ws : List (List Char)) :
    MinOnly maxD (buildState ⟨maxD, false⟩ ws) ∧
    (∀ (s0 : Sugg) (rest : List Sugg) (s : Sugg), s.distance < s0.distance →
      keep_lowest_distance false (s0 :: rest) s = [s]) ∧
    (∀ (s0 : Sugg) (rest : List Sugg) (s : Sugg), s0.distance = s.distance →
      keep_lowest_distance false (s0 :: rest) s = s0 :: (rest ++ [s])) ∧
    (∀ (s0 : Sugg) (rest : List Sugg) (s : Sugg), s0.distance < s.distance →
      keep_lowest_distance false (s0 :: rest) s = s0 :: rest) :=
  ⟨by
    rw [buildState_eq]
    exact minOnly_insertAll ⟨maxD, false⟩ rfl hk ws emptyState (minOnly_empty maxD),
   keep_lowest_false_lt, keep_lowest_false_eq, keep_lowest_false_gt⟩

/-- Witness for `c4_theorem`: on the corpus `["hello", "hell"]` the
variant `"hel"` is held (exactly) by `"hell"`, recorded at the minimal
deletion distance 1. -/
theorem c4_witness :
    wordIn (buildState ⟨2, false⟩ [['h','e','l','l','o'], ['h','e','l','l']])
      ['h','e','l','l'] ∧
    prodDist 2 ['h','e','l','l'] ['h','e','l'] = some 1 := by
  obtain ⟨dmin, h1, h2, h3, h4⟩ :=
    ((c4_theorem 2 (by decide) [['h','e','l','l','o'], ['h','e','l','l']]).1
      ['h','e','l']).2 [⟨['h','e','l','l'], 0, 1⟩] (by decide)
  have hdm : (1 : ℚ) = dmin :=
    (h2 ⟨['h','e','l','l'], 0, 1⟩ (List.mem_singleton.2 rfl)).1
  have hm := (h3 ['h','e','l','l']).1 (by simp [termsOf])
  rw [← hdm] at hm
  exact hm

/-! ## Claim C5 : counterexample -/

/-- C5 counterexample: querying is not read-only.  On the index built from
`["ab"]`, the key `"xy"` is absent before `suggest("xy")` and maps to the
empty list afterwards: the `defaultdict` read inside `suggest` inserts
missing keys, changing the key set of the variant-to-suggestions
mapping. -/
theorem c5_counterexample :
    lookupS (buildState ⟨2, false⟩ [['a','b']]) ['x','y'] = none ∧
    (suggest ⟨2, false⟩ edit_distance (buildState ⟨2, false⟩ [['a','b']])
        ['x','y']).map (fun p => lookupS p.2 ['x','y']) = some (some []) :=
  ⟨by decide, by decide⟩

/-! ## Claim C6 : counterexample -/

/-- C6 counterexample: for `w = "ab"` and `k = 2`, the empty string is
obtainable by deleting exactly 2 ∈ [1,2] characters, but
`edits("ab", 2)` does not contain it (the generator stops at entries of
length 1), so `edits` does not return *every* string obtainable by 1..k
deletions. -/
theorem c6_counterexample :
    DeletesTo ['a','b'] [] 2 ∧ (2 : Nat) ≤ 2 ∧ (1 : Nat) ≤ 2 ∧
    ∀ s ∈ edits ['a','b'] 2, s.term ≠ [] :=
  ⟨by decide, by decide, by decide, by decide⟩

/-- C6 (amended): for every word `w` of length > 1 and every `k ≥ 1`,
`edits(w, k)` returns exactly the set of *nonempty* strings obtainable from
`w` by deleting exactly `i` characters at any positions for some
`1 ≤ i ≤ k` — the empty string (reachable when `|w| ≤ k`) is never
produced — each variant appearing exactly once, annotated with deletion
count `|w| − |v|` (the unique, hence smallest, such `i`) and count 0; every
word of length at most 1 yields the empty set. -/
theorem c6_theorem (w : List Char) (k : Nat) (hw : 1 < w.length) (hk : 1 ≤ k) :
    (∀ v : List Char,
      v ∈ termsOf (edits w k) ↔ (v ≠ [] ∧ ∃ i, DeletesTo w v i ∧ 1 ≤ i ∧ i ≤ k)) ∧
    (∀ s ∈ edits w k, s.count = 0 ∧
      s.distance = ((w.length - s.term.length : Nat) : ℚ)) ∧
    (termsOf (edits w k)).Nodup ∧
    (∀ u : List Char, u.length ≤ 1 → edits u k = []) := by
  refine ⟨fun v => ⟨fun hv => ?_, fun hv => ?_⟩, fun s hs => ?_, ?_, fun u hu => ?_⟩
  · obtain ⟨s, hs, rfl⟩ := (mem_termsOf _ _).1 hv
    obtain ⟨hsub, hne, hlt, _⟩ := editsF_shape w.length w k 1 s hs
    obtain ⟨_, hbound⟩ := editsF_dist w.length w k 1 hk s hs
    exact ⟨hne, w.length - s.term.length, ⟨hsub, by omega⟩, by omega, by omega⟩
  · obtain ⟨hne, i, ⟨hsub, hlen⟩, hi1, hik⟩ := hv
    exact editsF_complete w.length w k 1 v le_rfl hk hsub hne (by omega) (by omega)
  · obtain ⟨_, _, hlt, hcount⟩ := editsF_shape w.length w k 1 s hs
    obtain ⟨hdist, _⟩ := editsF_dist w.length w k 1 hk s hs
    refine ⟨hcount, ?_⟩
    rw [hdist]
    congr 1
    omega
  · exact nodup_editsF w k 1 w.length
  · rw [edits]
    exact editsF_short u.length u k 1 hu

/-- Witness for `c6_theorem` at `w = "abc"`, `k = 2`: the variant `"a"`
(two deletions) is generated. -/
theorem c6_witness :
    ['a'] ∈ termsOf (edits ['a','b','c'] 2) := by
  have h := c6_theorem ['a','b','c'] 2 (by decide) (by decide)
  exact (h.1 ['a']).2 ⟨by decide, 2, by decide, by decide, by decide⟩

/-! ## Claim C8 : counterexample -/

/-- C8 counterexample: on the index built from `["abef"]`
(`max_distance = 2`) the only dictionary word is at true distance 4 > 2
from the query `"xyab"`, yet `correct("xyab")` returns `abef` rather than
no value: "no dictionary word within `max_distance` implies empty result"
fails, because acceptance measures the distance from the popped variant to
the query. -/
theorem c8_counterexample :
    (buildState ⟨2, false⟩ [['a','b','e','f']]).dictionary = [(['a','b','e','f'], 1)] ∧
    edit_distance ['x','y','a','b'] ['a','b','e','f'] = 4 ∧
    correctTerm ⟨2, false⟩ (buildState ⟨2, false⟩ [['a','b','e','f']])
      ['x','y','a','b'] = some (some ['a','b','e','f']) :=
  ⟨by decide, by decide, by decide⟩

/-- C8 (amended): `suggest` and `correct` are total and terminate on every
query word, every state and every metric: the work queue always empties
(each expansion strictly shortens the term, so only finitely many variants
of the query exist), `suggest` returns a list, and `correct` returns its
first element, hence no value exactly when that list is empty.  (The
original claim's "no dictionary word within `max_distance` implies an
empty result" is dropped: acceptance measures the metric distance between
the popped variant and the query, see the counterexample.) -/
theorem c8_theorem (cfg : Config) (metric : List Char → List Char → ℚ)
    (st : State) (word : List Char) :
    ∃ res st2, suggest cfg metric st word = some (res, st2) ∧
      correct cfg metric st word = some (res.head?, st2) := by
  obtain ⟨out, hout⟩ := suggestLoop_total cfg metric word (2 ^ word.length + 1) st
    [⟨word, 1, 0⟩] [word] []
    (by
      intro c hc
      rcases List.mem_singleton.1 hc with rfl
      exact List.Sublist.refl word)
    (qMu_init word)
  obtain ⟨res, st2⟩ := out
  have hs : suggest cfg metric st word = some (res, st2) := hout
  exact ⟨res, st2, hs, by rw [correct, hs]; rfl⟩

/-! ## Claim C2 : amended theorem -/

/-- C2 (amended): `suggest` returns its accepted suggestions sorted
ascending by the pair (stored distance, stored count) of the `Suggestion`
records taken from the index — the stored distance is the deletion count
recorded under the matched variant key (0 for a self-identity hit), not
the metric distance to the query — and on any state whose stored
suggestion lists all carry count 0 (every reachable state does) the
returned counts are all 0, so the frequency tie-break compares 0 with
0. -/
theorem c2_theorem (cfg : Config) (metric : List Char → List Char → ℚ)
    (st : State) (word : List Char) (res : List Sugg) (st2 : State)
    (h : suggest cfg metric st word = some (res, st2)) :
    List.Sorted suggLE res ∧ (CountsZero st → ∀ s ∈ res, s.count = 0) :=
  ⟨suggestLoop_sorted cfg metric word _ st _ _ _ res st2 h,
   fun hcz => (suggestLoop_counts cfg metric word _ st _ _ _ res st2 hcz
      (fun s hs => absurd hs (List.not_mem_nil s)) h).2⟩

/-- Witness for `c2_theorem`: the query `"ab"` on the index built from
`["ab"]` with `max_distance = 1`. -/
theorem c2_witness :
    List.Sorted suggLE [(⟨['a','b'], 0, 0⟩ : Sugg)] ∧
      ∀ s ∈ [(⟨['a','b'], 0, 0⟩ : Sugg)], s.count = 0 := by
  have h := c2_theorem ⟨1, false⟩ edit_distance (buildState ⟨1, false⟩ [['a','b']])
    ['a','b'] [⟨['a','b'], 0, 0⟩] (buildState ⟨1, false⟩ [['a','b']]) (by decide)
  exact ⟨h.1, h.2 (countsZero_buildState ⟨1, false⟩ [['a','b']])⟩

/-! ## Claim C5 : amended theorem -/

/-- C5 (amended): a query changes neither the dictionary nor any existing
suggestion list, and any key it adds to the variant-to-suggestions mapping
is bound to the empty list (the `defaultdict` read effect); the key set may
grow by queried variants, so querying is not strictly read-only. -/
theorem c5_theorem (cfg : Config) (metric : List Char → List Char → ℚ)
    (st : State) (word : List Char) (res : List Sugg) (st2 : State)
    (h : suggest cfg metric st word = some (res, st2)) :
    QueryPres st st2 ∧
      ∀ op st3, correct cfg metric st word = some (op, st3) → QueryPres st st3 := by
  have hq : QueryPres st st2 :=
    suggestLoop_pres cfg metric word _ st _ _ _ res st2 h
  refine ⟨hq, fun op st3 hc => ?_⟩
  have hcor : correct cfg metric st word = some (res.head?, st2) := by
    rw [correct, h]
    rfl
  rw [hcor] at hc
  injection hc with hpair
  cases hpair
  exact hq

/-- Witness for `c5_theorem`: querying `"a"` on the empty index adds only
the empty-list binding for `"a"`. -/
theorem c5_witness :
    QueryPres emptyState ⟨[], [(['a'], [])]⟩ :=
  (c5_theorem ⟨2, false⟩ edit_distance emptyState ['a'] []
    ⟨[], [(['a'], [])]⟩ (by decide)).1

/-! ## Claim C10 -/

/-- C10: every `Suggestion` stored in any variant list of the index has
count 0 — `add_entry` never copies the dictionary frequency into the
records it indexes — and consequently every suggestion returned by
`suggest` carries count 0, so the frequency component of the sort key
compares 0 against 0; both insertion and querying preserve this
invariant. -/
theorem c10_theorem (cfg : Config) (metric : List Char → List Char → ℚ)
    (st : State) (w : List Char) (hcz : CountsZero st) :
    CountsZero (add_entry cfg st w).1 ∧
      ∀ res st2, suggest cfg metric st w = some (res, st2) →
        CountsZero st2 ∧ ∀ s ∈ res, s.count = 0 :=
  ⟨countsZero_add_entry cfg st w hcz,
   fun res st2 h => suggestLoop_counts cfg metric w _ st _ _ _ res st2 hcz
      (fun s hs => absurd hs (List.not_mem_nil s)) h⟩

/-- Witness for `c10_theorem`: inserting `"hey"` into the empty index. -/
theorem c10_witness :
    CountsZero (add_entry ⟨2, false⟩ emptyState ['h','e','y']).1 :=
  (c10_theorem ⟨2, false⟩ edit_distance emptyState ['h','e','y'] countsZero_empty).1

end Alpha
